import Mathlib

/-! Safari books downloader: chapter assembly and e-book packaging

A shallow embedding of the parts of `safari/safari.go` and `ebook/ebook.go`
that the verified properties are about, followed by the theorems.

Conventions of the embedding:

* a Go `string` is a Lean `String`; the algorithms work on its list of
  characters;
* a Go `int` is an `Int`, a length is a `Nat`;
* a Go `map[int]V` is a list of key/value pairs with pairwise different keys
  (`GoMap`); reading a missing key gives the zero value of `V`;
* a Go `error` is an `Option Error`, `none` being `nil`;
* library functions (`strings.Split`, `strings.Replace`, `regexp`,
  `filepath.Walk`, `archive/zip`) are modelled by definitions that follow their
  documented behaviour.
-/

namespace SafariBooks

/-- The error values of the embedding carry their message only. -/
abbrev Error := String

/-! ## Data model (`safari/safari.go`) -/

/-- Go struct `Chapter`. -/
structure Chapter where
  Filename : String
  Images : List String
  AssetBaseURL : String
  Title : String
  Content : String
  Id : String
  Order : Int
  StylesheetsURL : List String
deriving DecidableEq, Repr

/-- The zero value of `Chapter`, which a Go map read returns for a missing key. -/
instance : Inhabited Chapter :=
  ⟨{ Filename := "", Images := [], AssetBaseURL := "", Title := "", Content := "",
     Id := "", Order := 0, StylesheetsURL := [] }⟩

/-- A Go `map[K]V`: the entries, with pairwise different keys. -/
structure GoMap (K V : Type) where
  entries : List (K × V)
deriving Repr

namespace GoMap

/-- The map made by `make(map[K]V)`. -/
def empty {K V : Type} : GoMap K V := ⟨[]⟩

/-- The Go statement `m[k] = v`. -/
def set {K V : Type} [DecidableEq K] (m : GoMap K V) (k : K) (v : V) : GoMap K V :=
  ⟨(k, v) :: m.entries.filter (fun e => e.1 != k)⟩

/-- The Go expression `v, ok := m[k]`: `none` when `k` is missing. -/
def find? {K V : Type} [DecidableEq K] (m : GoMap K V) (k : K) : Option V :=
  m.entries.lookup k

/-- The Go expression `m[k]`: the zero value when `k` is missing. -/
def get {K V : Type} [DecidableEq K] [Inhabited V] (m : GoMap K V) (k : K) : V :=
  match m.find? k with
  | some v => v
  | none => default

/-- The Go expression `len(m)`. -/
def len {K V : Type} (m : GoMap K V) : Nat := m.entries.length

/-- The keys of the map. -/
def keys {K V : Type} (m : GoMap K V) : List K := m.entries.map Prod.fst

end GoMap

/-- The loop of `fetchChapters` that drains `resultChan` into the chapter map:
`for r := range resultChan { book.chapters[r.int] = r.Chapter }`.
`results` is the content of the channel in arrival order. -/
def storeResults (chapters : GoMap Int Chapter) (results : List (Int × Chapter)) :
    GoMap Int Chapter :=
  results.foldl (fun m r => m.set r.1 r.2) chapters

/-- Go `adjustOrderByChapterNumber`: reads the keys `0 .. len(chapters)-1` in
turn and appends what it reads; the error returned is always `nil`. -/
def adjustOrderByChapterNumber (chapters : GoMap Int Chapter) :
    List Chapter × Option Error :=
  let total := chapters.len
  let chapters_slice :=
    (List.range total).foldl (fun sl (i : Nat) => sl ++ [chapters.get (Int.ofNat i)]) []
  (chapters_slice, none)

/-- The results `(index, chapter)` of the tasks dispatched for `cs`, in
dispatch order: the task of index `i` carries the `i`-th chapter. -/
def dispatched (cs : List Chapter) : List (Int × Chapter) :=
  cs.enum.map (fun p => (Int.ofNat p.1, p.2))

/-! ## The chapter fetcher (`safari/safari.go`) -/

/-- Go `strings.Replace(s, old, new, -1)` on characters, for a non-empty
`old`: the occurrences of `old` are replaced from left to right without
overlap. `skip` counts the characters of the occurrence being passed over. -/
def replaceOccurrences (old new : List Char) : Nat → List Char → List Char
  | _, [] => []
  | skip + 1, _ :: t => replaceOccurrences old new skip t
  | 0, c :: t =>
    if old.isPrefixOf (c :: t) then new ++ replaceOccurrences old new (old.length - 1) t
    else c :: replaceOccurrences old new 0 t

/-- Go `strings.Replace(s, old, new, -1)`. For an empty `old` the library puts
`new` before every character and at the end. -/
def stringsReplace (s old new : String) : String :=
  if old.data = [] then
    String.mk (new.data ++ s.data.flatMap (fun c => c :: new.data))
  else
    String.mk (replaceOccurrences old.data new.data 0 s.data)

/-- Go struct `TocContent`: the fields the program reads. -/
structure TocContent where
  URL : String
  Order : Int
  ID : String
deriving DecidableEq, Repr

/-- An element of the `[]interface{}` list `ChapterMeta.Images` after JSON
decoding: a string, or a value of another type. -/
inductive JsonValue where
  | str (s : String)
  | other
deriving DecidableEq, Repr

/-- Go struct `ChapterMeta`: the fields the program reads. `Stylesheets`
holds the `URL` field of each stylesheet entry. -/
structure ChapterMeta where
  Content : String
  URL : String
  Stylesheets : List String
  Images : List JsonValue
  AssetBaseURL : String
  Filename : String
  Title : String
deriving DecidableEq, Repr

/-- Go struct `Meta`: the fields the program reads. -/
structure Meta where
  Authors : List String
  Publishers : List String
  Chapters : List String
  Cover : String
  Identifier : String
  Title : String
  Description : String
  Language : String
deriving DecidableEq, Repr

instance : Inhabited Meta :=
  ⟨{ Authors := [], Publishers := [], Chapters := [], Cover := "", Identifier := "",
     Title := "", Description := "", Language := "" }⟩

/-- Go struct `Book`. -/
structure Book where
  id : String
  toc : GoMap String TocContent
  chapters : GoMap Int Chapter
  stylesheet : String
  meta : Meta

/-- The zero value of `Book`, read from `s.books` for an unknown id. -/
instance : Inhabited Book :=
  ⟨{ id := "", toc := GoMap.empty, chapters := GoMap.empty, stylesheet := "",
     meta := default }⟩

/-- Go struct `Safari`. -/
structure Safari where
  baseUrl : String
  clientSecret : String
  clientId : String
  books : GoMap String Book
  accessToken : String

/-- Go `NewSafari`. -/
def NewSafari : Safari :=
  { baseUrl := "https://www.safaribooksonline.com",
    clientSecret := "f52b3e30b68c1820adb08609c799cb6da1c29975",
    clientId := "446a8a270214734f42a7",
    books := GoMap.empty,
    accessToken := "" }

/-- The remote service and the JSON decoder, as the fetcher sees them:
`get uri` is the answer to an authorised GET of `uri` (the body of a 200
answer, or the error of any other outcome), `decodeChapterMeta body` is the
outcome of `json.Unmarshal` into a `ChapterMeta`. -/
structure Remote where
  get : String → Except Error String
  decodeChapterMeta : String → Except Error ChapterMeta

/-- Go `fetchResource`: the body and a `nil` error, or the empty string and
the error. -/
def fetchResource (s : Safari) (r : Remote) (url : String) : String × Option Error :=
  let uri := s.baseUrl ++ "/" ++ url
  match r.get uri with
  | .ok body => (body, none)
  | .error e => ("", some e)

/-- Go `json.Unmarshal([]byte(body), &meta)`: empty input is an error of the
library ("unexpected end of JSON input"). -/
def unmarshalChapterMeta (r : Remote) (body : String) : Except Error ChapterMeta :=
  if body = "" then .error "unexpected end of JSON input" else r.decodeChapterMeta body

/-- The loop `for _, v := range meta.Images { ... v.(string) }`: `none` is
the panic of the type assertion on a value that is not a string. -/
def imageStrings : List JsonValue → Option (List String)
  | [] => some []
  | .str s :: vs => (imageStrings vs).map (fun l => s :: l)
  | .other :: _ => none

/-- How one `fetchChapterContent` task ends: what it sent on `resultChan`,
whether it gave its slot of `sem` back, and whether it panicked. -/
structure TaskRun where
  sent : Option (Int × Chapter)
  released : Bool
  panicked : Bool
deriving DecidableEq, Repr

/-- Go `fetchChapterContent`, run alone once it holds its slot of `sem`. -/
def fetchChapterContent (s : Safari) (r : Remote) (index : Int) (id : String)
    (url : String) : TaskRun :=
  let uri := stringsReplace url s.baseUrl ""
  let (body, _) := fetchResource s r uri
  match unmarshalChapterMeta r body with
  | .error _ => { sent := none, released := false, panicked := false }
  | .ok meta =>
    let content_url := meta.Content
    let content_uri := stringsReplace content_url s.baseUrl ""
    let (content, _) := fetchResource s r content_uri
    match imageStrings meta.Images with
    | none => { sent := none, released := false, panicked := true }
    | some images =>
      let chapter : Chapter :=
        match (s.books.get id).toc.find? meta.URL with
        | some chapToc =>
          { Filename := meta.Filename, Images := images, AssetBaseURL := meta.AssetBaseURL,
            Title := meta.Title, Content := content, Id := chapToc.ID,
            Order := chapToc.Order, StylesheetsURL := meta.Stylesheets }
        | none =>
          { Filename := meta.Filename, Images := images, AssetBaseURL := meta.AssetBaseURL,
            Title := meta.Title, Content := content, Id := "tocxhtmlfile",
            Order := 0, StylesheetsURL := meta.Stylesheets }
      { sent := some (index, chapter), released := true, panicked := false }

/-- The tasks `fetchChapters` starts, in dispatch order: one per entry of
`meta.Chapters`, with the entry's position as index. -/
def dispatchTasks (s : Safari) (r : Remote) (id : String) : List TaskRun :=
  (s.books.get id).meta.Chapters.enum.map
    (fun p => fetchChapterContent s r (Int.ofNat p.1) id p.2)

/-- The results the tasks sent, in dispatch order. -/
def sentResults (runs : List TaskRun) : List (Int × Chapter) :=
  runs.filterMap (fun t => t.sent)

/-- Go `fetchChapters` after the join: `arrival` is the content of
`resultChan`, the results sent in the order the scheduler let them arrive.
The new state of the library and the returned error, which is always `nil`. -/
def fetchChapters (s : Safari) (id : String) (arrival : List (Int × Chapter)) :
    Safari × Option Error :=
  let book := s.books.get id
  let book := { book with chapters := storeResults book.chapters arrival }
  ({ s with books := s.books.set id book }, none)

/-- The three-chapter book of the end-to-end scenario: the chapters at
metadata indices 0, 1, 2 have the table-of-contents orders 2, 0, 1. -/
def scenarioSafari : Safari :=
  { NewSafari with
    books := GoMap.empty.set "b"
      { id := "b",
        toc := ((GoMap.empty.set "u0" { URL := "u0", Order := 2, ID := "c" }).set "u1"
                  { URL := "u1", Order := 0, ID := "a" }).set "u2"
                  { URL := "u2", Order := 1, ID := "b" },
        chapters := GoMap.empty,
        stylesheet := "",
        meta := { (default : Meta) with
          Chapters := ["https://www.safaribooksonline.com/m0",
                       "https://www.safaribooksonline.com/m1",
                       "https://www.safaribooksonline.com/m2"] } } }

/-- The remote service of the scenario: every GET succeeds and returns the
requested address as body; the decoder reads the chapter number from the last
character of the body. -/
def scenarioRemote : Remote :=
  { get := fun uri => .ok uri,
    decodeChapterMeta := fun body =>
      let n := String.mk [body.data.getLast?.getD '0']
      .ok { Content := "https://www.safaribooksonline.com/c" ++ n, URL := "u" ++ n,
            Stylesheets := [], Images := [], AssetBaseURL := "", Filename := "f" ++ n,
            Title := "t" ++ n } }

/-- The chapter list `FetchBookById` puts in the serialized book, for the
results arrived in the order `arrival`. -/
def assembledChapters (s : Safari) (id : String) (arrival : List (Int × Chapter)) :
    List Chapter × Option Error :=
  adjustOrderByChapterNumber (((fetchChapters s id arrival).1.books.get id).chapters)

/-! ## Regular expressions (Go `regexp`) -/

/-- A set of characters of the regular-expression syntax. -/
inductive CharClass where
  /-- a literal character -/
  | lit (c : Char)
  /-- `.`: any character except a newline -/
  | anyNotNL
  /-- `\s`: tab, newline, form feed, carriage return, space -/
  | space
  /-- `[^...]`: any character, newline included, except the listed ones -/
  | notIn (cs : List Char)
deriving DecidableEq, Repr

/-- Whether the character `x` is in the class. -/
def CharClass.test : CharClass → Char → Bool
  | .lit c, x => x == c
  | .anyNotNL, x => x != '\n'
  | .space, x => x == '\t' || x == '\n' || x == '\x0c' || x == '\r' || x == ' '
  | .notIn cs, x => !cs.contains x

/-- An item of a regular expression: a class taken once, `x?`, `x*` (both
greedy), and the two brackets of the capture group. -/
inductive Atom where
  | one (c : CharClass)
  | opt (c : CharClass)
  | star (c : CharClass)
  | gopen
  | gclose
deriving DecidableEq, Repr

/-- The characters that have a meaning of their own in the syntax. -/
def isMeta (c : Char) : Bool :=
  ['\\', '.', '+', '*', '?', '(', ')', '|', '[', ']', '{', '}', '^', '$'].contains c

/-- The characters that may follow a backslash to stand for themselves:
ASCII and neither a letter nor a digit. -/
def isEscapable (c : Char) : Bool := c.toNat < 128 && !c.isAlphanum

/-- The content of a negated class after `[^`, up to the closing bracket:
single characters and escaped punctuation (no ranges, no named classes). The
listed characters and the rest of the expression. -/
def parseClassItems : List Char → Option (List Char × List Char)
  | [] => none
  | ']' :: rest => some ([], rest)
  | '\\' :: c :: rest =>
    if isEscapable c then (parseClassItems rest).map (fun p => (c :: p.1, p.2)) else none
  | c :: rest =>
    if c == '-' || c == '[' || c == '\\' then none
    else (parseClassItems rest).map (fun p => (c :: p.1, p.2))

/-- One class at the head of the expression, and the rest. -/
def parseItem : List Char → Option (CharClass × List Char)
  | [] => none
  | '\\' :: 's' :: rest => some (.space, rest)
  | '\\' :: c :: rest => if isEscapable c then some (.lit c, rest) else none
  | '.' :: rest => some (.anyNotNL, rest)
  | '[' :: '^' :: rest =>
    match parseClassItems rest with
    | some (c :: cs, rest') => some (.notIn (c :: cs), rest')
    | _ => none
  | c :: rest => if isMeta c then none else some (.lit c, rest)

/-- The parser of the expression: `none` for an expression outside the
subset of the syntax that is modelled. -/
def parseAtoms : Nat → List Char → Option (List Atom)
  | 0, _ => none
  | _ + 1, [] => some []
  | n + 1, '(' :: rest => (parseAtoms n rest).map (fun l => Atom.gopen :: l)
  | n + 1, ')' :: rest => (parseAtoms n rest).map (fun l => Atom.gclose :: l)
  | n + 1, s =>
    match parseItem s with
    | none => none
    | some (c, '*' :: rest) => (parseAtoms n rest).map (fun l => Atom.star c :: l)
    | some (c, '?' :: rest) => (parseAtoms n rest).map (fun l => Atom.opt c :: l)
    | some (c, rest) => (parseAtoms n rest).map (fun l => Atom.one c :: l)

/-- At most one capture group, opened before it is closed: `st` is 0 before
the group, 1 inside, 2 after. -/
def groupsOk : Nat → List Atom → Bool
  | st, [] => st != 1
  | st, .gopen :: l => st == 0 && groupsOk 1 l
  | st, .gclose :: l => st == 1 && groupsOk 2 l
  | st, _ :: l => groupsOk st l

/-- A compiled regular expression. -/
structure Regexp where
  atoms : List Atom
deriving DecidableEq, Repr

/-- Go `regexp.MustCompile` on the expressions the embedding parses:
literals, `.`, `\s`, escaped characters, negated classes, each with `*` or
`?` at most, and one capture group. `none` is the panic of Go on an
expression it refuses, and it is also the answer to an expression Go
compiles that is outside this subset (`+`, `|`, `[..]`, `{..}`, `^`, `$`,
several groups): on those the embedding says nothing about Go. -/
def MustCompile (expr : String) : Option Regexp :=
  match parseAtoms (expr.length + 1) expr.data with
  | some l => if groupsOk 0 l then some ⟨l⟩ else none
  | none => none

/-- A match at a position of the text: the text left at the opening bracket
of the group, at its closing bracket, and after the match. -/
structure Match where
  gopen : List Char
  gclose : List Char
  rest : List Char
deriving DecidableEq, Repr

/-- The greedy loop of `x*`: takes as many characters of the class as there
are, then gives them back one at a time until `k` matches what follows. -/
def starLoop (c : CharClass) (k : List Char → Option Match) : List Char → Option Match
  | [] => k []
  | x :: s =>
    if c.test x then
      match starLoop c k s with
      | some m => some m
      | none => k (x :: s)
    else k (x :: s)

/-- The match of the items at the head of `s`, the first one a backtracking
search finds (leftmost-first: a greedy item first tries to take more). -/
def matchAtoms : List Atom → List Char → List Char → List Char → Option Match
  | [], go, gc, s => some ⟨go, gc, s⟩
  | .one _ :: _, _, _, [] => none
  | .one c :: k, go, gc, x :: s => if c.test x then matchAtoms k go gc s else none
  | .opt _ :: k, go, gc, [] => matchAtoms k go gc []
  | .opt c :: k, go, gc, x :: s =>
    if c.test x then
      match matchAtoms k go gc s with
      | some m => some m
      | none => matchAtoms k go gc (x :: s)
    else matchAtoms k go gc (x :: s)
  | .star c :: k, go, gc, s => starLoop c (matchAtoms k go gc) s
  | .gopen :: k, _, gc, s => matchAtoms k s gc s
  | .gclose :: k, go, _, s => matchAtoms k go s s

/-- The match of the expression that starts at the head of `s`. -/
def Regexp.matchAt (re : Regexp) (s : List Char) : Option Match :=
  matchAtoms re.atoms s s s

/-- The text of the capture group. -/
def Match.group (m : Match) : List Char :=
  m.gopen.take (m.gopen.length - m.gclose.length)

/-- The characters of a name in a replacement template. -/
def isNameChar (c : Char) : Bool := c.isAlphanum || c == '_'

/-- Go `extract`: the name after a `$` of the template and the rest of the
template; `none` when the reference is malformed. Names are read over ASCII
letters, digits and the underscore; Go reads the letters and digits of
Unicode as well, so the embedding follows Go on the templates in which no
letter or digit outside ASCII comes after a `$`. -/
def extract (str : List Char) : Option (List Char × List Char) :=
  match str with
  | [] => none
  | '{' :: t =>
    let name := t.takeWhile isNameChar
    match name, t.dropWhile isNameChar with
    | [], _ => none
    | _ :: _, '}' :: rest => some (name, rest)
    | _ :: _, _ => none
  | _ =>
    let name := str.takeWhile isNameChar
    match name with
    | [] => none
    | _ :: _ => some (name, str.dropWhile isNameChar)

/-- Go `expand`: the replacement text for a match, from the template. `$0` is
the whole match, `$1` the capture group, any other name is empty. -/
def expand (whole g1 : List Char) : Nat → List Char → List Char
  | 0, _ => []
  | _ + 1, [] => []
  | n + 1, '$' :: '$' :: t => '$' :: expand whole g1 n t
  | n + 1, '$' :: t =>
    match extract t with
    | none => '$' :: expand whole g1 n t
    | some (name, rest) =>
      (if name = ['0'] then whole else if name = ['1'] then g1 else []) ++
        expand whole g1 n rest
  | n + 1, c :: t => c :: expand whole g1 n t

/-- The replacement text for the match `m` found at the head of `s`. -/
def replacement (repl : List Char) (s : List Char) (m : Match) : List Char :=
  expand (s.take (s.length - m.rest.length)) m.group (repl.length + 1) repl

/-- The loop of Go `replaceAll`, one character of the source at a time.
`skip` counts the characters of the current match still to pass over;
`after` tells that the previous match ended right here, where an empty match
is not replaced. -/
def replaceAllLoop (re : Regexp) (repl : List Char) : Nat → Bool → List Char → List Char
  | _, after, [] =>
    match re.matchAt [] with
    | some m => if after then [] else replacement repl [] m
    | none => []
  | skip + 1, _, _ :: t => replaceAllLoop re repl skip true t
  | 0, after, c :: t =>
    match re.matchAt (c :: t) with
    | none => c :: replaceAllLoop re repl 0 false t
    | some m =>
      if (c :: t).length - m.rest.length = 0 then
        (if after then [] else replacement repl (c :: t) m) ++
          c :: replaceAllLoop re repl 0 false t
      else
        replacement repl (c :: t) m ++
          replaceAllLoop re repl ((c :: t).length - m.rest.length - 1) true t

/-- Go `(*Regexp).ReplaceAllString`. -/
def Regexp.ReplaceAllString (re : Regexp) (src repl : String) : String :=
  String.mk (replaceAllLoop re repl.data 0 false src.data)

/-! ## The package builder (`ebook/ebook.go`) -/

/-- Go struct `JsonBook`. -/
structure JsonBook where
  Title : String
  Uuid : String
  Language : String
  Author : List String
  Cover : String
  Description : String
  Publisher : List String
  Stylesheet : String
  Chapters : List Chapter
deriving DecidableEq, Repr

/-- Go struct `ImageToFetch`. -/
structure ImageToFetch where
  BaseUrl : String
  File : String
  Media : String
  Path : String
deriving DecidableEq, Repr

/-- Go struct `Ebook`. -/
structure Ebook where
  jsonBook : JsonBook
  tempBookPath : String
  images : List ImageToFetch
deriving DecidableEq, Repr

/-- Go `strings.Split(s, sep)` for a separator of one character, on
characters: the pieces between the separators, at least one piece. -/
def splitChars (sep : Char) : List Char → List (List Char)
  | [] => [[]]
  | c :: t =>
    if c = sep then [] :: splitChars sep t
    else
      match splitChars sep t with
      | [] => [[c]]
      | piece :: pieces => (c :: piece) :: pieces

/-- Go `strings.Split(s, "/")`. -/
def stringsSplitSlash (s : String) : List String :=
  (splitChars '/' s.data).map String.mk

/-- The local file name both `downloadImages` and `writeChapters` derive from
an image reference:
`imagePath := image; pathArray := strings.Split(image, "/");`
`if len(pathArray) > 1 { imagePath = pathArray[len(pathArray)-1] }`. -/
def imagePathOf (image : String) : String :=
  let imagePath := image
  let pathArray := stringsSplitSlash image
  let pathArrayLen := pathArray.length
  if pathArrayLen > 1 then pathArray.getD (pathArrayLen - 1) "" else imagePath

/-- The first loop of Go `downloadImages`: the list stored in `e.images`. -/
def downloadImages (e : Ebook) : Ebook :=
  let images :=
    e.jsonBook.Chapters.foldl (fun images chapter =>
      let baseUrl := chapter.AssetBaseURL
      chapter.Images.foldl (fun images image =>
        images ++ [{ BaseUrl := baseUrl, File := image, Media := "image/png",
                     Path := "images/" ++ imagePathOf image }]) images) []
  { e with images := images }

/-- The address the second loop of `downloadImages` fetches for an entry:
`url := image.BaseUrl + image.File`. -/
def imageURL (image : ImageToFetch) : String := image.BaseUrl ++ image.File

/-- The image-rewriting loop of Go `writeChapters`, for the images of one
chapter: every image reference is compiled, after the prefix `[^"]*`, as a
regular expression and its matches are replaced by the local path. -/
def rewriteImages (images : List String) (content : String) : Option String :=
  images.foldlM (fun chapterContent image => do
    let imagePath := imagePathOf image
    let reg ← MustCompile ("[^\"]*" ++ image)
    let rep := "images/" ++ imagePath
    pure (reg.ReplaceAllString chapterContent rep)) content

/-- Go `purifyHTML`. -/
def purifyHTML (content : String) : Option String := do
  let result := content
  let result ← ["img"].foldlM (fun result ele => do
      let reg ← MustCompile ("<(\\s?" ++ ele ++ "[^>]*[^\\/])>")
      let rep := "<${1} />"
      pure (reg.ReplaceAllString result rep)) result
  let result ← ["br", "hr"].foldlM (fun result ele => do
      let reg ← MustCompile ("<\\s?" ++ ele ++ "[^>]*>")
      let rep := "<" ++ ele ++ "/>"
      pure (reg.ReplaceAllString result rep)) result
  pure result

/-! ## The archiver (`zipit` in `ebook/ebook.go`) -/

/-- The failures a node of the file system is set to answer with, one per
step of the archiver: `os.Lstat` during the walk, reading the names of a
directory, `zip.FileInfoHeader`, `archive.CreateHeader`, `os.Open`, `io.Copy`.
`none` means the step succeeds. -/
structure Faults where
  lstatErr : Option Error
  readDirErr : Option Error
  headerErr : Option Error
  createErr : Option Error
  openErr : Option Error
  copyErr : Option Error
deriving DecidableEq, Repr

/-- A node on which every step succeeds. -/
def Faults.ok : Faults :=
  { lstatErr := none, readDirErr := none, headerErr := none, createErr := none,
    openErr := none, copyErr := none }

/-- A regular file or a directory; the children of a directory are listed in
the order `filepath.Walk` visits them (sorted by name). -/
inductive FsNode where
  | file (name : String) (data : String) (faults : Faults)
  | dir (name : String) (children : List FsNode) (faults : Faults)
deriving Repr

/-- Go `info.Name()`. -/
def FsNode.name : FsNode → String
  | .file n _ _ => n
  | .dir n _ _ => n

/-- Go `info.IsDir()`. -/
def FsNode.IsDir : FsNode → Bool
  | .file _ _ _ => false
  | .dir _ _ _ => true

/-- The failures set on the node. -/
def FsNode.faults : FsNode → Faults
  | .file _ _ f => f
  | .dir _ _ f => f

/-- The content of a regular file. -/
def FsNode.data : FsNode → String
  | .file _ d _ => d
  | .dir _ _ _ => ""

/-- The compression methods of `archive/zip`. -/
inductive Method where
  | Store
  | Deflate
deriving DecidableEq, Repr

/-- Go `zip.FileHeader`: the fields the archiver sets. -/
structure FileHeader where
  Name : String
  Method : Method
deriving DecidableEq, Repr

/-- A member written to the archive: its header, whether it was written
for a directory, the content copied into it, and whether the copy was
completed (always so for a directory). -/
structure Member where
  Name : String
  Method : Method
  IsDir : Bool
  data : String
  complete : Bool
deriving DecidableEq, Repr

/-- Go `zip.FileInfoHeader`: the name is the base name of the file and the
method is left unset, which is `Store`. -/
def FileInfoHeader (info : FsNode) : Except Error FileHeader :=
  match info.faults.headerErr with
  | some e => .error e
  | none => .ok { Name := info.name, Method := Method.Store }

/-- The callback `zipit` hands to `filepath.Walk`. The visited path is the
source followed by the names in `rel`, so that
`filepath.Join(baseDir, strings.TrimPrefix(path, source))` is `baseDir`
followed by these names. `info` is `none` when `Lstat` failed. The archive
after the call and the error returned. -/
def zipVisit (baseDir : String) (rel : List String) (info : Option FsNode)
    (err : Option Error) (archive : List Member) : List Member × Option Error :=
  match err, info with
  | some e, _ => (archive, some e)
  | none, none => (archive, none)
  | none, some info =>
    match FileInfoHeader info with
    | .error e => (archive, some e)
    | .ok header =>
      let header :=
        if baseDir != "" then { header with Name := String.intercalate "/" (baseDir :: rel) }
        else header
      let header :=
        if info.IsDir then { header with Name := header.Name ++ "/" }
        else { header with Method := Method.Deflate }
      match info.faults.createErr with
      | some e => (archive, some e)
      | none =>
        if info.IsDir then
          (archive ++ [{ Name := header.Name, Method := header.Method, IsDir := true,
                         data := "", complete := true }], none)
        else
          match info.faults.openErr with
          | some e =>
            (archive ++ [{ Name := header.Name, Method := header.Method, IsDir := false,
                           data := "", complete := false }], some e)
          | none =>
            match info.faults.copyErr with
            | some e =>
              (archive ++ [{ Name := header.Name, Method := header.Method, IsDir := false,
                             data := "", complete := false }], some e)
            | none =>
              (archive ++ [{ Name := header.Name, Method := header.Method, IsDir := false,
                             data := info.data, complete := true }], none)

mutual
/-- Go `walk` of `path/filepath`: a file is visited; a directory is visited
with the outcome of reading its names and, when both that and the visit
succeeded, its children are walked in order until one returns an error. -/
def walk (baseDir : String) (rel : List String) (info : FsNode) (archive : List Member) :
    List Member × Option Error :=
  match info with
  | .file n d f => zipVisit baseDir rel (some (.file n d f)) none archive
  | .dir n children f =>
    match zipVisit baseDir rel (some (.dir n children f)) f.readDirErr archive with
    | (archive, some e) => (archive, some e)
    | (archive, none) =>
      match f.readDirErr with
      | some _ => (archive, none)
      | none => walkChildren baseDir rel children archive
/-- The loop of Go `walk` over the names of a directory. -/
def walkChildren (baseDir : String) (rel : List String) (children : List FsNode)
    (archive : List Member) : List Member × Option Error :=
  match children with
  | [] => (archive, none)
  | child :: rest =>
    match child.faults.lstatErr with
    | some e =>
      match zipVisit baseDir (rel ++ [child.name]) none (some e) archive with
      | (archive, some e) => (archive, some e)
      | (archive, none) => walkChildren baseDir rel rest archive
    | none =>
      match walk baseDir (rel ++ [child.name]) child archive with
      | (archive, some e) => (archive, some e)
      | (archive, none) => walkChildren baseDir rel rest archive
end

/-- Go `filepath.Walk(root, fn)` with the callback of `zipit`. -/
def Walk (baseDir : String) (root : FsNode) (archive : List Member) :
    List Member × Option Error :=
  match root.faults.lstatErr with
  | some e => zipVisit baseDir [] none (some e) archive
  | none => walk baseDir [] root archive

/-- The file system as the archiver sees it: `stat path` is the outcome of
`os.Stat`, `create path` the error of `os.Create`, if any. -/
structure World where
  stat : String → Except Error FsNode
  create : String → Option Error

/-- The loop of Go `zipit` over the sources. The archive written and, when
the loop left the function early, the value it returned (the inner `return
nil`); the value of `filepath.Walk` is dropped. -/
def zipSources (w : World) : List String → List Member → List Member × Option (Option Error)
  | [], archive => (archive, none)
  | source :: sources, archive =>
    match w.stat source with
    | .error _ => (archive, some none)
    | .ok info =>
      let baseDir := if info.IsDir then info.name else ""
      let (archive, _) := Walk baseDir info archive
      zipSources w sources archive

/-- Go `zipit`: the returned error and the members written to the archive.
After the loop the function returns the `err` of `os.Create`, the only one in
scope there. -/
def zipit (w : World) (sources : List String) (target : String) :
    Option Error × List Member :=
  match w.create target with
  | some err => (some err, [])
  | none =>
    let err : Option Error := none
    match zipSources w sources [] with
    | (archive, some returned) => (returned, archive)
    | (archive, none) => (err, archive)

/-- The file system seen from a staging tree: the staging directory `temp`
holds the nodes `entries`; any other path does not exist; every file can be
created. -/
def stageWorld (temp : String) (entries : List FsNode) : World :=
  { stat := fun path =>
      match entries.find? (fun e => temp ++ "/" ++ e.name == path) with
      | some e => .ok e
      | none => .error ("stat " ++ path ++ ": no such file or directory"),
    create := fun _ => none }

/-- The sources `generateEpub` hands to `zipit`. -/
def filesNeedToBeArchived (tempBookPath : String) : List String :=
  [tempBookPath ++ "/mimetype", tempBookPath ++ "/META-INF", tempBookPath ++ "/OEBPS"]

/-- Go `generateEpub`: the members written and whether `check(err)` let the
call return (`true`) or panicked (`false`). -/
def generateEpub (w : World) (tempBookPath : String) (path : String) : List Member × Bool :=
  match zipit w (filesNeedToBeArchived tempBookPath) path with
  | (some _, archive) => (archive, false)
  | (none, archive) => (archive, true)

/-- A staging tree as `NewEbook` and `Save` leave it for a book of one
chapter. -/
def sampleStage : List FsNode :=
  [ .file "mimetype" "application/epub+zip" Faults.ok,
    .dir "META-INF" [ .file "container.xml" "<container/>" Faults.ok ] Faults.ok,
    .dir "OEBPS"
      [ .file "ch01.html" "<html/>" Faults.ok,
        .file "content.opf" "<package/>" Faults.ok,
        .dir "images" [ .file "cover.jpg" "jpg" Faults.ok ] Faults.ok,
        .file "style.css" "" Faults.ok,
        .file "toc.ncx" "<ncx/>" Faults.ok ] Faults.ok ]

/-- The same staging tree without its `META-INF` directory. -/
def brokenStage : List FsNode :=
  sampleStage.filter (fun e => e.name != "META-INF")

/-! ## The assembler as a whole (`safari/safari.go`) -/

/-- The remote service with what the rest of the assembler needs from it:
`login username password` is the outcome of the token request (the access
token of a 200 answer that decodes, or the error), `decodeMeta` and
`decodeToc` are the outcomes of `json.Unmarshal` into a `Meta` and into a
list of `TocContent`. -/
structure Service extends Remote where
  login : String → String → Except Error String
  decodeMeta : String → Except Error Meta
  decodeToc : String → Except Error (List TocContent)

/-- The choices the Go runtime makes during a run: `acquire tasks` is the
order in which the started tasks get the slot of `sem`, `iterate entries` the
order in which a `range` over the chapter map visits its entries. Both are
rearrangements of their argument. -/
structure Scheduler where
  acquire : List TaskRun → List TaskRun
  iterate : List (Int × Chapter) → List (Int × Chapter)

/-- The scheduler that gives the slot to the tasks in dispatch order and
visits the entries of the map in the order in which the embedding lists
them. -/
def Scheduler.inOrder : Scheduler :=
  { acquire := fun tasks => tasks, iterate := fun entries => entries }

/-- Go `authorizeUser`: the token is stored, or the error is returned. -/
def authorizeUser (s : Safari) (sv : Service) (username password : String) :
    Safari × Option Error :=
  match sv.login username password with
  | .error e => (s, some e)
  | .ok token => ({ s with accessToken := token }, none)

/-- Go `fetchMeta`. -/
def fetchMeta (s : Safari) (sv : Service) (id : String) : Safari × Option Error :=
  let url := "/api/v1/book/" ++ id
  match fetchResource s sv.toRemote url with
  | (_, some err) => (s, some err)
  | (body, none) =>
    match (if body = "" then .error "unexpected end of JSON input" else sv.decodeMeta body) with
    | .error err => (s, some err)
    | .ok meta =>
      let book : Book :=
        { id := id, toc := GoMap.empty, chapters := GoMap.empty, stylesheet := "",
          meta := meta }
      ({ s with books := s.books.set id book }, none)

/-- Go `fetchTOC`, for a book that `fetchMeta` has stored: on a failed fetch
or decoding nothing changes; otherwise every entry is stored in the book's
table of contents under its URL. -/
def fetchTOC (s : Safari) (sv : Service) (id : String) : Safari :=
  let url := "/api/v1/book/" ++ id ++ "/flat-toc/"
  match fetchResource s sv.toRemote url with
  | (_, some _) => s
  | (body, none) =>
    match (if body = "" then .error "unexpected end of JSON input" else sv.decodeToc body) with
    | .error _ => s
    | .ok raw =>
      let book := s.books.get id
      let book := { book with
        toc := raw.foldl (fun toc content => toc.set content.URL content) book.toc }
      { s with books := s.books.set id book }

/-- The tasks of `fetchChapters` under the one slot of `sem`, in the order in
which they get the slot: each task runs from `sem <- 1` to its return before
the next one can start. A task that returns without `<-sem` keeps the slot
for ever, and so do the tasks still waiting at `sem <- 1`; a panic ends the
program. The results queued on `resultChan`, and whether every task has
returned, which is when `wg.Wait()` returns. -/
def runTasks : List TaskRun → List (Int × Chapter) × Bool
  | [] => ([], true)
  | t :: rest =>
    let sent := match t.sent with
      | some r => [r]
      | none => []
    if t.panicked then (sent, false)
    else if t.released then
      let (queued, joined) := runTasks rest
      (sent ++ queued, joined)
    else (sent, rest.isEmpty)

/-- Go `fetchChapters` as a whole, for the tasks in the order `schedule` in
which they get the slot: `none` when `wg.Wait()` never returns. -/
def fetchChaptersRun (s : Safari) (id : String) (schedule : List TaskRun) :
    Option (Safari × Option Error) :=
  match runTasks schedule with
  | (arrival, true) => some (fetchChapters s id arrival)
  | (_, false) => none

/-- Go `fetchStylesheet`; `iteration` is the order in which
`for _, chapter := range book.chapters` visits the entries of the map. -/
def fetchStylesheet (s : Safari) (id : String) (iteration : List (Int × Chapter)) :
    Safari × Option Error :=
  let book := s.books.get id
  let stylesheet :=
    iteration.foldl (fun stylesheet entry =>
      entry.2.StylesheetsURL.foldl (fun stylesheet stylesheetURL =>
        if stylesheet = "" then stylesheetURL else stylesheet) stylesheet) ""
  let book := { book with stylesheet := stylesheet }
  ({ s with books := s.books.set id book }, none)

/-- How a call of `FetchBookById` ends: with the serialized book, with an
error, or never. -/
inductive FetchResult where
  | data (book : JsonBook)
  | error (e : Error)
  | stuck
deriving DecidableEq, Repr

/-- Go `FetchBookById`. The serialized book is given as the value that
`json.Marshal` encodes and `NewEbook` decodes again. -/
def FetchBookById (s : Safari) (sv : Service) (sched : Scheduler)
    (id username password : String) : FetchResult :=
  match authorizeUser s sv username password with
  | (_, some err) => .error err
  | (s, none) =>
    match fetchMeta s sv id with
    | (_, some err) => .error err
    | (s, none) =>
      let s := fetchTOC s sv id
      match fetchChaptersRun s id (sched.acquire (dispatchTasks s sv.toRemote id)) with
      | none => .stuck
      | some (_, some err) => .error err
      | some (s, none) =>
        match fetchStylesheet s id (sched.iterate (s.books.get id).chapters.entries) with
        | (_, some err) => .error err
        | (s, none) =>
          let author := (s.books.get id).meta.Authors
          let publisher := (s.books.get id).meta.Publishers
          match adjustOrderByChapterNumber (s.books.get id).chapters with
          | (_, some err) => .error err
          | (chapters, none) =>
            .data
              { Title := (s.books.get id).meta.Title,
                Uuid := (s.books.get id).meta.Identifier,
                Language := (s.books.get id).meta.Language,
                Author := author,
                Cover := (s.books.get id).meta.Cover,
                Description := (s.books.get id).meta.Description,
                Publisher := publisher,
                Stylesheet := (s.books.get id).stylesheet,
                Chapters := chapters }

/-- A service for a book `"b"` of two chapters, whose addresses end in the
chapter number. Every request is answered, except those whose address is in
`failing`. The chapter of number `n` names the stylesheet `"css" ++ n`. -/
def twoChapterService (failing : List String) : Service :=
  { get := fun uri => if failing.contains uri then .error "Error: status code != 200" else .ok uri,
    decodeChapterMeta := fun body =>
      let n := String.mk [body.data.getLast?.getD '0']
      .ok { Content := "https://www.safaribooksonline.com/c" ++ n, URL := "u" ++ n,
            Stylesheets := ["css" ++ n], Images := [], AssetBaseURL := "",
            Filename := "f" ++ n, Title := "t" ++ n },
    login := fun _ _ => .ok "token",
    decodeMeta := fun _ =>
      .ok { (default : Meta) with
            Identifier := "b", Title := "T",
            Chapters := ["https://www.safaribooksonline.com/m0",
                         "https://www.safaribooksonline.com/m1"] },
    decodeToc := fun _ => .ok [] }

/-- A library whose book `"b"` has two fetched chapters that name different
stylesheets. -/
def twoStylesSafari : Safari :=
  { NewSafari with
    books := GoMap.empty.set "b"
      { id := "b", toc := GoMap.empty,
        chapters := (GoMap.empty.set 0 { (default : Chapter) with StylesheetsURL := ["A"] }).set 1
                      { (default : Chapter) with StylesheetsURL := ["B"] },
        stylesheet := "", meta := default } }

/-! ## The build steps of `Save` (`ebook/ebook.go`) -/

/-- Go struct `OebpsContent`. -/
structure OebpsContent where
  Title : String
  Content : String
  CoreCSS : String
deriving DecidableEq, Repr

/-- The text of `chapterTmpl` before `{{ .Title }}`. -/
def chapterTmpl1 : String :=
  "<?xml version=\"1.0\" encoding=\"UTF-8\" standalone=\"no\"?>\n<!DOCTYPE html>\n<html xmlns=\"http://www.w3.org/1999/xhtml\" xmlns:epub=\"http://www.idpf.org/2007/ops\" xmlns:m=\"http://www.w3.org/1998/Math/MathML\" xmlns:pls=\"http://www.w3.org/2005/01/pronunciation-lexicon\" xmlns:ssml=\"http://www.w3.org/2001/10/synthesis\" xmlns:svg=\"http://www.w3.org/2000/svg\">\n<head>\n  <meta charset=\"UTF-8\" />\n  <title>"

/-- The text of `chapterTmpl` between `{{ .Title }}` and `{{ .CoreCSS }}`. -/
def chapterTmpl2 : String :=
  "</title>\n  <link type=\"text/css\" rel=\"stylesheet\" media=\"all\" href=\"style.css\" />\n  "

/-- The text of `chapterTmpl` between `{{ .CoreCSS }}` and `{{ .Content }}`. -/
def chapterTmpl3 : String := "\n</head>\n<body>\n  "

/-- The text of `chapterTmpl` after `{{ .Content }}`. -/
def chapterTmpl4 : String := "\n</body>\n</html>\n"

/-- Go `t.Execute(f, c)` for the template `chapterTmpl` of package
`text/template`: the three fields are written as they are, between the
pieces of text of the template. -/
def executeChapterTmpl (c : OebpsContent) : String :=
  chapterTmpl1 ++ c.Title ++ chapterTmpl2 ++ c.CoreCSS ++ chapterTmpl3 ++ c.Content
    ++ chapterTmpl4

/-- The body of the loop of Go `writeChapters` after the regular expressions
have done their work, up to the value handed to the template:
`chapterContent` is the content of the chapter as the rewriting of the image
references and `purifyHTML` leave it, whatever it is; the link to `core.css`
is chosen by the `Stylesheet` of the book and the three fields are filled. -/
def oebpsContent (jsonBook : JsonBook) (chapter : Chapter) (chapterContent : String) :
    OebpsContent :=
  let coreCSS :=
    if jsonBook.Stylesheet != "" then
      "<link type=\"text/css\" rel=\"stylesheet\" media=\"all\" href=\"core.css\" />"
    else ""
  { Title := chapter.Title, Content := chapterContent, CoreCSS := coreCSS }

/-- The body of the loop of Go `writeChapters` up to the value handed to the
template: the image references are rewritten, the link to `core.css` is
chosen, the markup is normalised. `none` is the answer `none` of
`MustCompile` to one of the expressions: the panic of Go, or an image
reference outside the subset the embedding parses. -/
def chapterOebps (jsonBook : JsonBook) (chapter : Chapter) : Option OebpsContent := do
  let chapterContent ← rewriteImages chapter.Images chapter.Content
  let coreCSS :=
    if jsonBook.Stylesheet != "" then
      "<link type=\"text/css\" rel=\"stylesheet\" media=\"all\" href=\"core.css\" />"
    else ""
  let chapterContent ← purifyHTML chapterContent
  pure { Title := chapter.Title, Content := chapterContent, CoreCSS := coreCSS }

/-- The chapter document Go `writeChapters` writes to
`OEBPS/<chapter.Filename>`. -/
def chapterDocument (jsonBook : JsonBook) (chapter : Chapter) : Option String :=
  (chapterOebps jsonBook chapter).map executeChapterTmpl

/-- The number of places of `s` at which an occurrence of the non-empty text
`pat` starts. -/
def occurrences (pat : List Char) : List Char → Nat
  | [] => 0
  | c :: t => (if pat.isPrefixOf (c :: t) then 1 else 0) + occurrences pat t

/-- What the package builder works with: `create path` is the error of
`os.Create`, if any; `get url` the answer to a GET request, its status code
and body, or the error of the transport; `opf` and `toc` the texts the
bundled templates `opf.tmpl` and `toc.ncx.tmpl` render, or the error of
parsing or running them; `styleCss` the bundled `style.css`; `world files`
the file system as the archiver finds it once `files` have been written. -/
structure BuildEnv where
  create : String → Option Error
  get : String → Except Error (Nat × String)
  opf : JsonBook → List ImageToFetch → Except Error String
  toc : JsonBook → Except Error String
  styleCss : Except Error String
  world : List (String × String) → World

/-- The progress of a build: the files created so far with what has been
written to them, the addresses requested from the network, the archive once
written, and the panic that stopped the build, if any. -/
structure Build where
  files : List (String × String)
  requests : List String
  archive : Option (List Member)
  panic : Option Error
deriving DecidableEq, Repr

/-- Go `check(e)`: the build goes on after a `nil` error and panics
otherwise. -/
def Build.stop (b : Build) (e : Error) : Build := { b with panic := some e }

/-- Go `os.Create(path)` followed by `check(err)`: the file exists and is
empty. -/
def Build.createFile (env : BuildEnv) (path : String) (b : Build) : Build :=
  match env.create path with
  | some e => b.stop e
  | none => { b with files := b.files.filter (fun f => f.1 != path) ++ [(path, "")] }

/-- Writing `content` to the open file `path`. -/
def Build.writeFile (path content : String) (b : Build) : Build :=
  { b with files := b.files.map (fun f => if f.1 = path then (path, f.2 ++ content) else f) }

/-- A step of the build, skipped once the build has panicked. -/
def Build.step (f : Build → Build) (b : Build) : Build :=
  match b.panic with
  | some _ => b
  | none => f b

/-- Go `http.Get(url)` and `client.Do` of a GET request: the empty address
has no protocol scheme and is refused with an error before any request is
sent; any other address is requested. The answer and the build with the
request recorded. -/
def httpGet (env : BuildEnv) (url : String) (b : Build) :
    Except Error (Nat × String) × Build :=
  if url = "" then (.error "Get \"\": unsupported protocol scheme \"\"", b)
  else (env.get url, { b with requests := b.requests ++ [url] })

/-- Go `prepareFolder`, `writeMimeType` and `writeContainer`, called by
`NewEbook`: the state a build starts from. -/
def prepareBuild (env : BuildEnv) (tempBookPath : String) : Build :=
  let b : Build := { files := [], requests := [], archive := none, panic := none }
  let b := Build.step (fun b =>
    (b.createFile env (tempBookPath ++ "/mimetype")).step
      (Build.writeFile (tempBookPath ++ "/mimetype") "application/epub+zip")) b
  Build.step (fun b =>
    (b.createFile env (tempBookPath ++ "/META-INF/container.xml")).step
      (Build.writeFile (tempBookPath ++ "/META-INF/container.xml")
        "<?xml version=\"1.0\" encoding=\"UTF-8\" ?>\n<container version=\"1.0\" xmlns=\"urn:oasis:names:tc:opendocument:xmlns:container\">\n<rootfiles>\n<rootfile full-path=\"OEBPS/content.opf\" media-type=\"application/oebps-package+xml\"/>\n</rootfiles>\n</container>")) b

/-- Go `NewEbook`, from the decoded book. -/
def NewEbook (env : BuildEnv) (jsonBook : JsonBook) : Ebook × Build :=
  let tempBookPath := "books/" ++ jsonBook.Uuid
  ({ jsonBook := jsonBook, tempBookPath := tempBookPath, images := [] },
   prepareBuild env tempBookPath)

/-- The second loop of Go `downloadImages`, for one image: any failure of
the request, any status other than 200 and any failure to create the file
panics. -/
def fetchImage (env : BuildEnv) (e : Ebook) (image : ImageToFetch) (b : Build) : Build :=
  let url := image.BaseUrl ++ image.File
  match httpGet env url b with
  | (.error err, b) => b.stop err
  | (.ok (status, body), b) =>
    if status != 200 then b.stop "Error: status code != 200"
    else
      (b.createFile env (e.tempBookPath ++ "/OEBPS/" ++ image.Path)).step
        (Build.writeFile (e.tempBookPath ++ "/OEBPS/" ++ image.Path) body)

/-- Go `downloadImages`: the image list is stored, then every image is
fetched. -/
def downloadImagesStep (env : BuildEnv) (e : Ebook) (b : Build) : Ebook × Build :=
  let e := downloadImages e
  (e, e.images.foldl (fun b image => Build.step (fetchImage env e image) b) b)

/-- Go `writeChapters`. A chapter on which `chapterOebps` is `none` stops the
build as the panic of `regexp.MustCompile` does; this is what Go does for
the image references Go refuses, and the embedding follows Go on the books
whose image references are in the subset `MustCompile` parses. -/
def writeChaptersStep (env : BuildEnv) (e : Ebook) (b : Build) : Build :=
  e.jsonBook.Chapters.foldl (fun b chapter =>
    Build.step (fun b =>
      match chapterOebps e.jsonBook chapter with
      | none => b.stop "regexp: Compile: error parsing regexp"
      | some c =>
        (b.createFile env (e.tempBookPath ++ "/OEBPS/" ++ chapter.Filename)).step
          (Build.writeFile (e.tempBookPath ++ "/OEBPS/" ++ chapter.Filename)
            (executeChapterTmpl c))) b) b

/-- Go `writeContentOPF`. -/
def writeContentOPFStep (env : BuildEnv) (e : Ebook) (b : Build) : Build :=
  (b.createFile env (e.tempBookPath ++ "/OEBPS/content.opf")).step (fun b =>
    match env.opf e.jsonBook e.images with
    | .error err => b.stop err
    | .ok text => b.writeFile (e.tempBookPath ++ "/OEBPS/content.opf") text)

/-- Go `writeTOC`. -/
def writeTOCStep (env : BuildEnv) (e : Ebook) (b : Build) : Build :=
  (b.createFile env (e.tempBookPath ++ "/OEBPS/toc.ncx")).step (fun b =>
    match env.toc e.jsonBook with
    | .error err => b.stop err
    | .ok text => b.writeFile (e.tempBookPath ++ "/OEBPS/toc.ncx") text)

/-- Go `downloadCoverImage`. -/
def downloadCoverImageStep (env : BuildEnv) (e : Ebook) (b : Build) : Build :=
  (b.createFile env (e.tempBookPath ++ "/OEBPS/images/cover.jpg")).step (fun b =>
    match httpGet env e.jsonBook.Cover b with
    | (.error err, b) => b.stop err
    | (.ok (_, body), b) => b.writeFile (e.tempBookPath ++ "/OEBPS/images/cover.jpg") body)

/-- Go `writeCSS`. -/
def writeCSSStep (env : BuildEnv) (e : Ebook) (b : Build) : Build :=
  match env.styleCss with
  | .error err => b.stop err
  | .ok text =>
    (b.createFile env (e.tempBookPath ++ "/OEBPS/style.css")).step
      (Build.writeFile (e.tempBookPath ++ "/OEBPS/style.css") text)

/-- Go `downloadStylesheet`: the file `OEBPS/core.css` is created, then the
stylesheet is requested, whatever its address. -/
def downloadStylesheetStep (env : BuildEnv) (e : Ebook) (b : Build) : Build :=
  (b.createFile env (e.tempBookPath ++ "/OEBPS/core.css")).step (fun b =>
    match httpGet env e.jsonBook.Stylesheet b with
    | (.error err, b) => b.stop err
    | (.ok (_, body), b) => b.writeFile (e.tempBookPath ++ "/OEBPS/core.css") body)

/-- Go `generateEpub` as a step of the build. -/
def generateEpubStep (env : BuildEnv) (e : Ebook) (path : String) (b : Build) : Build :=
  match zipit (env.world b.files) (filesNeedToBeArchived e.tempBookPath) path with
  | (some err, archive) => { b with archive := some archive, panic := some err }
  | (none, archive) => { b with archive := some archive }

/-- Go `Save`, from the state `b` that `NewEbook` left. -/
def Save (env : BuildEnv) (e : Ebook) (outputPath : String) (b : Build) : Build :=
  let outputPath := if outputPath = "" then "ebook.epub" else outputPath
  let (e, b) :=
    match b.panic with
    | some _ => (e, b)
    | none => downloadImagesStep env e b
  let b := Build.step (writeChaptersStep env e) b
  let b := Build.step (writeContentOPFStep env e) b
  let b := Build.step (writeTOCStep env e) b
  let b := Build.step (downloadCoverImageStep env e) b
  let b := Build.step (writeCSSStep env e) b
  let b := Build.step (downloadStylesheetStep env e) b
  Build.step (generateEpubStep env e outputPath) b

/-- An environment in which every operation succeeds: every file can be
created, every request is answered with status 200 and the address as body,
the bundled templates render to fixed texts, and the archiver finds the
staging tree `sampleStage`. -/
def okEnv : BuildEnv :=
  { create := fun _ => none,
    get := fun url => .ok (200, url),
    opf := fun _ _ => .ok "<package/>",
    toc := fun _ => .ok "<ncx/>",
    styleCss := .ok "",
    world := fun _ => stageWorld "books/x" sampleStage }

/-- A book of one chapter, with the stylesheet `stylesheet`. -/
def sampleBook (stylesheet : String) : JsonBook :=
  { Title := "T", Uuid := "x", Language := "en", Author := ["A"],
    Cover := "http://h/cover.jpg", Description := "", Publisher := ["P"],
    Stylesheet := stylesheet,
    Chapters := [{ (default : Chapter) with
                   Filename := "ch01.html", Title := "One", Content := "<p>text<br></p>" }] }

/-! ## Auxiliary definitions of the proofs -/

/-- A member that, when written for a regular file, is deflated. -/
def DeflatedFile (m : Member) : Prop := m.IsDir = false → m.Method = Method.Deflate

/-- The archive `a2` is `a1` followed by members that are deflated when
regular files. -/
def Appends (a1 a2 : List Member) : Prop :=
  ∃ added, a2 = a1 ++ added ∧ ∀ m ∈ added, DeflatedFile m

/-- The number of characters a match of the items takes at least. -/
def minLen : List Atom → Nat
  | [] => 0
  | .one _ :: k => minLen k + 1
  | _ :: k => minLen k

/-- The expression `[^"]*foo/bar.png` compiled. -/
def fooRe : Regexp :=
  ⟨[.star (.notIn ['"']), .one (.lit 'f'), .one (.lit 'o'), .one (.lit 'o'), .one (.lit '/'),
    .one (.lit 'b'), .one (.lit 'a'), .one (.lit 'r'), .one .anyNotNL, .one (.lit 'p'),
    .one (.lit 'n'), .one (.lit 'g')]⟩

/-- The expression `[^"]*bar.png` compiled. -/
def barRe : Regexp :=
  ⟨[.star (.notIn ['"']), .one (.lit 'b'), .one (.lit 'a'), .one (.lit 'r'), .one .anyNotNL,
    .one (.lit 'p'), .one (.lit 'n'), .one (.lit 'g')]⟩

/-- The expression `<(\s?img[^>]*[^\/])>` compiled. -/
def imgRe : Regexp :=
  ⟨[.one (.lit '<'), .gopen, .opt .space, .one (.lit 'i'), .one (.lit 'm'), .one (.lit 'g'),
    .star (.notIn ['>']), .one (.notIn ['/']), .gclose, .one (.lit '>')]⟩

/-- The items that match the characters of `name` in turn. -/
def litAtoms (name : List Char) : List Atom := name.map (fun c => Atom.one (.lit c))

/-- The expression `<\s?name[^>]*>` compiled. -/
def tagRe (name : List Char) : Regexp :=
  ⟨.one (.lit '<') :: .opt .space :: (litAtoms name ++ [.star (.notIn ['>']), .one (.lit '>')])⟩

/-- What is left of `s` after its prefix `name`, when it has this prefix. -/
def stripPrefix : List Char → List Char → Option (List Char)
  | [], s => some s
  | _ :: _, [] => none
  | n :: name, c :: s => if c = n then stripPrefix name s else none

/-- The text after one leading white-space character, if there is one. -/
def skipSpace : List Char → List Char
  | [] => []
  | x :: r => if CharClass.space.test x then r else x :: r

/-- What follows `<`, an optional white-space character and `name` at the
head of `u`, when `u` starts in this way. -/
def tagBody (name : List Char) : List Char → Option (List Char)
  | [] => none
  | c :: r => if c = '<' then stripPrefix name (skipSpace r) else none

/-- A tag `<name ...` starts at the head of `u`. -/
def okTag (name : List Char) (u : List Char) : Bool := (tagBody name u).isSome

/-- A tag `<img ...` starts at the head of `u`, with at least one character
after the name and a last character other than `/`. -/
def okImg (u : List Char) : Bool :=
  match tagBody ['i', 'm', 'g'] u with
  | some body =>
    match body.getLast? with
    | some x => x != '/'
    | none => false
  | none => false

/-- The rewriting of the text up to the next `>`: at the first place where
`ok` holds, what is left is replaced by `out` of it. -/
def segRewrite (ok : List Char → Bool) (out : List Char → List Char) :
    List Char → List Char
  | [] => []
  | c :: v => if ok (c :: v) then out (c :: v) else c :: segRewrite ok out v

/-- The first pass of `purifyHTML` on characters. -/
def imgPass (s : List Char) : List Char :=
  replaceAllLoop imgRe "<${1} />".data 0 false s

/-- A pass of the second loop of `purifyHTML` on characters. -/
def tagPass (name : List Char) (s : List Char) : List Char :=
  replaceAllLoop (tagRe name) ('<' :: (name ++ ['/', '>'])) 0 false s

/-- What the first pass makes of the text before a `>`. -/
def segImg (u : List Char) : List Char :=
  segRewrite okImg (fun v => v ++ [' ', '/']) u

/-- What a pass of the second loop makes of the text before a `>`. -/
def segTag (name : List Char) (u : List Char) : List Char :=
  segRewrite (okTag name) (fun _ => '<' :: (name ++ ['/'])) u

/-- No `img` tag left to rewrite starts anywhere in `w`. -/
def NoImg (w : List Char) : Prop := ∀ v, v <:+ w → okImg v = false

/-- Every tag `<name` that starts in `w` is `<name/` and ends `w`. -/
def OnlyClosed (name : List Char) (w : List Char) : Prop :=
  ∀ v, v <:+ w → okTag name v = true → v = '<' :: (name ++ ['/'])

/-- The three passes on the text before a `>`. -/
def segPurify (u : List Char) : List Char :=
  segTag ['h', 'r'] (segTag ['b', 'r'] (segImg u))

/-- The three passes of `purifyHTML` on characters. -/
def purifyChars (s : List Char) : List Char :=
  tagPass ['h', 'r'] (tagPass ['b', 'r'] (imgPass s))

/-- No `>` is followed at once by another `>`. -/
def Tame (s : List Char) : Prop := ¬ ['>', '>'] <:+: s

/-! ## Lemmas on the chapter map -/

theorem GoMap.lookup_filter_ne {K V : Type} [DecidableEq K] (l : List (K × V)) (k k' : K)
    (h : k' ≠ k) :
    (l.filter (fun e => e.1 != k)).lookup k' = l.lookup k' := by
  induction l with
  | nil => rfl
  | cons e l ih =>
    obtain ⟨a, b⟩ := e
    by_cases hak : a = k
    · subst hak
      have h1 : (k' == a) = false := by simpa using h
      simp [List.filter, List.lookup, h1, ih]
    · have h2 : (a != k) = true := by simpa using hak
      simp only [List.filter, h2, List.lookup]
      rw [ih]

theorem GoMap.get_set_same {K V : Type} [DecidableEq K] [Inhabited V] (m : GoMap K V)
    (k : K) (v : V) : (m.set k v).get k = v := by
  simp [GoMap.set, GoMap.get, GoMap.find?, List.lookup]

theorem GoMap.get_set_other {K V : Type} [DecidableEq K] [Inhabited V] (m : GoMap K V)
    (k k' : K) (v : V) (h : k' ≠ k) : (m.set k v).get k' = m.get k' := by
  have h1 : (k' == k) = false := by simpa using h
  simp [GoMap.set, GoMap.get, GoMap.find?, List.lookup, h1, GoMap.lookup_filter_ne _ _ _ h]

theorem GoMap.filter_fresh {K V : Type} [DecidableEq K] (l : List (K × V)) (k : K)
    (h : k ∉ l.map Prod.fst) : l.filter (fun e => e.1 != k) = l := by
  rw [List.filter_eq_self]
  intro e he
  have : e.1 ≠ k := fun hk => h (List.mem_map.2 ⟨e, he, hk⟩)
  simpa using this

theorem GoMap.keys_set_fresh {K V : Type} [DecidableEq K] (m : GoMap K V) (k : K) (v : V)
    (h : k ∉ m.keys) : (m.set k v).keys = k :: m.keys := by
  simp only [GoMap.set, GoMap.keys, List.map_cons]
  rw [GoMap.filter_fresh _ _ h]

theorem storeResults_get_absent (results : List (Int × Chapter)) (m : GoMap Int Chapter)
    (k : Int) (h : k ∉ results.map Prod.fst) :
    (storeResults m results).get k = m.get k := by
  induction results generalizing m with
  | nil => rfl
  | cons r rs ih =>
    simp only [List.map_cons, List.mem_cons, not_or] at h
    show (storeResults (m.set r.1 r.2) rs).get k = m.get k
    rw [ih _ h.2, GoMap.get_set_other _ _ _ _ h.1]

theorem storeResults_get_mem (results : List (Int × Chapter)) (m : GoMap Int Chapter)
    (hnd : (results.map Prod.fst).Nodup) (k : Int) (c : Chapter)
    (h : (k, c) ∈ results) : (storeResults m results).get k = c := by
  induction results generalizing m with
  | nil => cases h
  | cons r rs ih =>
    simp only [List.map_cons, List.nodup_cons] at hnd
    show (storeResults (m.set r.1 r.2) rs).get k = c
    rcases List.mem_cons.1 h with h1 | h1
    · subst h1
      rw [storeResults_get_absent _ _ _ hnd.1, GoMap.get_set_same]
    · exact ih _ hnd.2 h1

theorem storeResults_len (results : List (Int × Chapter)) (m : GoMap Int Chapter)
    (hnd : (results.map Prod.fst).Nodup)
    (hdis : ∀ k ∈ results.map Prod.fst, k ∉ m.keys) :
    (storeResults m results).len = m.len + results.length := by
  induction results generalizing m with
  | nil => rfl
  | cons r rs ih =>
    simp only [List.map_cons, List.nodup_cons] at hnd
    show (storeResults (m.set r.1 r.2) rs).len = _
    have hr : r.1 ∉ m.keys := hdis r.1 (by simp)
    rw [ih _ hnd.2]
    · have : (m.set r.1 r.2).len = m.len + 1 := by
        have := congrArg List.length (GoMap.keys_set_fresh m r.1 r.2 hr)
        simpa [GoMap.keys, GoMap.len] using this
      rw [this, List.length_cons]; omega
    · intro k hk
      rw [GoMap.keys_set_fresh _ _ _ hr]
      intro hmem
      rcases List.mem_cons.1 hmem with h1 | h1
      · exact hnd.1 (h1 ▸ hk)
      · exact hdis k (by simp [List.mem_map] at hk ⊢; exact Or.inr hk) h1

theorem foldl_append_singleton {α β : Type} (f : α → β) (l : List α) (init : List β) :
    l.foldl (fun sl (i : α) => sl ++ [f i]) init = init ++ l.map f := by
  induction l generalizing init with
  | nil => simp
  | cons a l ih => simp [ih]

theorem dispatched_keys (cs : List Chapter) :
    (dispatched cs).map Prod.fst = (List.range cs.length).map Int.ofNat := by
  simp only [dispatched, List.map_map]
  have : (Prod.fst ∘ fun p : ℕ × Chapter => (Int.ofNat p.1, p.2))
      = Int.ofNat ∘ Prod.fst := rfl
  rw [this, ← List.map_map, List.enum_map_fst]

theorem dispatched_keys_nodup (cs : List Chapter) :
    ((dispatched cs).map Prod.fst).Nodup := by
  rw [dispatched_keys]
  exact (List.nodup_range _).map (fun a b h => Int.ofNat.inj h)

theorem dispatched_mem (cs : List Chapter) (i : Nat) (h : i < cs.length) :
    (Int.ofNat i, cs[i]) ∈ dispatched cs := by
  refine List.mem_map.2 ⟨(i, cs[i]), ?_, rfl⟩
  rw [List.mem_iff_get]
  exact ⟨⟨i, by simpa using h⟩, by simp⟩

/-- The assembly of `FetchBookById` for a map filled from `arrival`: what
`adjustOrderByChapterNumber` returns when the results are a rearrangement of
the dispatched ones. -/
theorem assemble_of_perm (cs : List Chapter) (arrival : List (Int × Chapter))
    (h : arrival.Perm (dispatched cs)) :
    adjustOrderByChapterNumber (storeResults GoMap.empty arrival) = (cs, none) := by
  have hnd : (arrival.map Prod.fst).Nodup :=
    ((h.map Prod.fst).nodup_iff).2 (dispatched_keys_nodup cs)
  have hlen : (storeResults GoMap.empty arrival).len = cs.length := by
    rw [storeResults_len _ _ hnd (by intro k _ hk; cases hk)]
    simp [GoMap.len, GoMap.empty, h.length_eq, dispatched]
  unfold adjustOrderByChapterNumber
  simp only [hlen]
  rw [foldl_append_singleton (fun i => (storeResults GoMap.empty arrival).get (Int.ofNat i))]
  simp only [List.nil_append]
  congr 1
  apply List.ext_getElem
  · simp
  · intro i h1 h2
    simp only [List.getElem_map, List.getElem_range]
    exact storeResults_get_mem _ _ hnd _ _ (h.symm.subset (dispatched_mem cs i h2))

/-! ## Lemmas on the image list -/

theorem splitChars_ne_nil (sep : Char) (l : List Char) : splitChars sep l ≠ [] := by
  induction l with
  | nil => simp [splitChars]
  | cons c t ih =>
    by_cases h : c = sep
    · simp [splitChars, h]
    · cases hs : splitChars sep t with
      | nil => exact absurd hs ih
      | cons piece pieces => simp [splitChars, h, hs]

theorem splitChars_of_not_mem (sep : Char) (l : List Char) (h : sep ∉ l) :
    splitChars sep l = [l] := by
  induction l with
  | nil => rfl
  | cons c t ih =>
    simp only [List.mem_cons, not_or] at h
    have hc : ¬ c = sep := fun e => h.1 e.symm
    simp [splitChars, hc, ih h.2]

theorem splitChars_append (sep : Char) (p t : List Char) :
    splitChars sep (p ++ sep :: t) = splitChars sep p ++ splitChars sep t := by
  induction p with
  | nil => simp [splitChars]
  | cons c p ih =>
    by_cases h : c = sep
    · simp [splitChars, h, ih]
    · cases hs : splitChars sep p with
      | nil => exact absurd hs (splitChars_ne_nil sep p)
      | cons piece pieces =>
        have e : splitChars sep (c :: p ++ sep :: t)
            = match splitChars sep (p ++ sep :: t) with
              | [] => [[c]]
              | piece :: pieces => (c :: piece) :: pieces := by
          simp [splitChars, h]
        rw [e, ih, hs]
        simp [splitChars, h, hs]

theorem imagePathOf_no_slash (r : String) (h : '/' ∉ r.data) : imagePathOf r = r := by
  simp [imagePathOf, stringsSplitSlash, splitChars_of_not_mem _ _ h]

theorem imagePathOf_last (p n : String) (h : '/' ∉ n.data) :
    imagePathOf (p ++ "/" ++ n) = n := by
  have hd : (p ++ "/" ++ n).data = p.data ++ '/' :: n.data := by
    simp [String.data_append]
  have hsplit : splitChars '/' (p ++ "/" ++ n).data = splitChars '/' p.data ++ [n.data] := by
    rw [hd, splitChars_append, splitChars_of_not_mem _ _ h]
  have hlen : 0 < (splitChars '/' p.data).length :=
    List.length_pos.2 (splitChars_ne_nil _ _)
  simp only [imagePathOf, stringsSplitSlash, hsplit, List.map_append, List.map_cons,
    List.map_nil, List.length_append, List.length_map, List.length_cons, List.length_nil]
  have h1 : (splitChars '/' p.data).length + (0 + 1) > 1 := by omega
  rw [if_pos h1]
  rw [List.getD_eq_getElem?_getD, List.getElem?_append_right (by simp)]
  simp

theorem downloadImages_inner (baseUrl : String) (imgs : List String)
    (init : List ImageToFetch) :
    imgs.foldl (fun images image =>
        images ++ [({ BaseUrl := baseUrl, File := image, Media := "image/png",
                      Path := "images/" ++ imagePathOf image } : ImageToFetch)]) init
      = init ++ imgs.map (fun image =>
          ({ BaseUrl := baseUrl, File := image, Media := "image/png",
             Path := "images/" ++ imagePathOf image } : ImageToFetch)) :=
  foldl_append_singleton _ imgs init

theorem downloadImages_outer (chs : List Chapter) (init : List ImageToFetch) :
    chs.foldl (fun images chapter =>
        chapter.Images.foldl (fun images image =>
          images ++ [({ BaseUrl := chapter.AssetBaseURL, File := image, Media := "image/png",
                        Path := "images/" ++ imagePathOf image } : ImageToFetch)]) images) init
      = init ++ chs.flatMap (fun chapter => chapter.Images.map (fun image =>
          ({ BaseUrl := chapter.AssetBaseURL, File := image, Media := "image/png",
             Path := "images/" ++ imagePathOf image } : ImageToFetch))) := by
  induction chs generalizing init with
  | nil => simp
  | cons ch chs ih =>
    simp only [List.foldl_cons, List.flatMap_cons]
    rw [downloadImages_inner, ih, List.append_assoc]

/-! ## Lemmas on the archiver -/

theorem Appends.refl (a : List Member) : Appends a a := ⟨[], by simp, by simp⟩

theorem Appends.trans {a b c : List Member} (h1 : Appends a b) (h2 : Appends b c) :
    Appends a c := by
  obtain ⟨n1, e1, q1⟩ := h1
  obtain ⟨n2, e2, q2⟩ := h2
  refine ⟨n1 ++ n2, by rw [e2, e1, List.append_assoc], ?_⟩
  intro m hm
  rcases List.mem_append.1 hm with h | h
  · exact q1 m h
  · exact q2 m h

theorem Appends.one (a : List Member) (m : Member) (h : DeflatedFile m) :
    Appends a (a ++ [m]) :=
  ⟨[m], rfl, by intro x hx; rw [List.mem_singleton.1 hx]; exact h⟩

theorem zipVisit_appends (baseDir : String) (rel : List String) (info : Option FsNode)
    (err : Option Error) (a : List Member) :
    Appends a (zipVisit baseDir rel info err a).1 := by
  rcases err with _ | e
  · rcases info with _ | node
    · exact Appends.refl a
    · cases hh : node.faults.headerErr with
      | some e => simp only [zipVisit, FileInfoHeader, hh]; exact Appends.refl a
      | none =>
        cases hc : node.faults.createErr with
        | some e => simp only [zipVisit, FileInfoHeader, hh, hc]; exact Appends.refl a
        | none =>
          cases hd : node.IsDir with
          | true =>
            simp only [zipVisit, FileInfoHeader, hh, hc, hd, if_true]
            exact Appends.one _ _ (fun h => by cases h)
          | false =>
            cases ho : node.faults.openErr with
            | some e =>
              simp only [zipVisit, FileInfoHeader, hh, hc, hd, ho, Bool.false_eq_true, if_false]
              exact Appends.one _ _ (fun _ => rfl)
            | none =>
              cases hcp : node.faults.copyErr with
              | some e =>
                simp only [zipVisit, FileInfoHeader, hh, hc, hd, ho, hcp, Bool.false_eq_true,
                  if_false]
                exact Appends.one _ _ (fun _ => rfl)
              | none =>
                simp only [zipVisit, FileInfoHeader, hh, hc, hd, ho, hcp, Bool.false_eq_true,
                  if_false]
                exact Appends.one _ _ (fun _ => rfl)
  · rcases info with _ | node <;> exact Appends.refl a

mutual
theorem walk_appends (baseDir : String) (rel : List String) (info : FsNode)
    (a : List Member) : Appends a (walk baseDir rel info a).1 :=
  match info with
  | .file n d f => by
    rw [walk]
    exact zipVisit_appends _ _ _ _ _
  | .dir n children f => by
    rw [walk]
    have h1 := zipVisit_appends baseDir rel (some (.dir n children f)) f.readDirErr a
    rcases hv : zipVisit baseDir rel (some (.dir n children f)) f.readDirErr a with ⟨a1, e1⟩
    rw [hv] at h1
    cases e1 with
    | some e => exact h1
    | none =>
      cases hr : f.readDirErr with
      | some e => exact h1
      | none => exact h1.trans (walkChildren_appends baseDir rel children a1)
theorem walkChildren_appends (baseDir : String) (rel : List String)
    (children : List FsNode) (a : List Member) :
    Appends a (walkChildren baseDir rel children a).1 :=
  match children with
  | [] => by
    rw [walkChildren]
    exact Appends.refl a
  | child :: rest => by
    rw [walkChildren]
    cases hl : child.faults.lstatErr with
    | some e =>
      have h1 := zipVisit_appends baseDir (rel ++ [child.name]) none (some e) a
      rcases hv : zipVisit baseDir (rel ++ [child.name]) none (some e) a with ⟨a1, e1⟩
      rw [hv] at h1
      cases e1 with
      | some e => simpa only [hv] using h1
      | none =>
        simp only [hv]
        exact h1.trans (walkChildren_appends baseDir rel rest a1)
    | none =>
      have h1 := walk_appends baseDir (rel ++ [child.name]) child a
      rcases hv : walk baseDir (rel ++ [child.name]) child a with ⟨a1, e1⟩
      rw [hv] at h1
      cases e1 with
      | some e => simpa only [hv] using h1
      | none =>
        simp only [hv]
        exact h1.trans (walkChildren_appends baseDir rel rest a1)
end

theorem Walk_appends (baseDir : String) (root : FsNode) (a : List Member) :
    Appends a (Walk baseDir root a).1 := by
  unfold Walk
  split
  · exact zipVisit_appends _ _ _ _ _
  · exact walk_appends _ _ _ _

theorem zipSources_appends (w : World) (sources : List String) (a : List Member) :
    Appends a (zipSources w sources a).1 := by
  induction sources generalizing a with
  | nil => exact Appends.refl a
  | cons source sources ih =>
    rw [zipSources]
    split
    · exact Appends.refl a
    · exact (Walk_appends _ _ a).trans (ih _)

theorem Appends.head {a b : List Member} (h : Appends a b) (m : Member)
    (hm : a.head? = some m) : b.head? = some m := by
  obtain ⟨n, e, _⟩ := h
  cases a with
  | nil => cases hm
  | cons x xs => rw [e]; simpa using hm

theorem stageWorld_stat_name (temp : String) (entries : List FsNode) (name : String)
    (node : FsNode) (h : (stageWorld temp entries).stat (temp ++ "/" ++ name) = .ok node) :
    node.name = name := by
  simp only [stageWorld] at h
  split at h
  · rename_i e he
    have hp := List.find?_some he
    simp only [beq_iff_eq] at hp
    cases h
    have hd := congrArg String.data hp
    simp only [String.data_append] at hd
    exact String.ext (List.append_cancel_left hd)
  · cases h

/-! ## Lemmas on the matcher -/

theorem starLoop_nil (c : CharClass) (k : List Char → Option Match) :
    starLoop c k [] = k [] := rfl

theorem starLoop_cons_fail (c : CharClass) (k : List Char → Option Match) (x : Char)
    (s : List Char) (h : c.test x = false) : starLoop c k (x :: s) = k (x :: s) := by
  simp [starLoop, h]

theorem starLoop_append_some (c : CharClass) (k : List Char → Option Match)
    (w s : List Char) (m : Match) (hw : ∀ x ∈ w, c.test x = true)
    (h : starLoop c k s = some m) : starLoop c k (w ++ s) = some m := by
  induction w with
  | nil => exact h
  | cons x w ih =>
    have hx : c.test x = true := hw x (by simp)
    have := ih (fun y hy => hw y (by simp [hy]))
    simp [starLoop, hx, this]

theorem starLoop_append_none (c : CharClass) (k : List Char → Option Match)
    (w s : List Char) (h : starLoop c k s = none)
    (hk : ∀ v, v ≠ [] → v <:+ w → k (v ++ s) = none) : starLoop c k (w ++ s) = none := by
  induction w with
  | nil => exact h
  | cons x w ih =>
    have h1 : starLoop c k (w ++ s) = none :=
      ih (fun v hv hs => hk v hv (hs.trans (List.suffix_cons x w)))
    have h2 : k (x :: (w ++ s)) = none := hk (x :: w) (by simp) (List.suffix_refl _)
    by_cases hx : c.test x = true
    · simp [starLoop, hx, h1, h2]
    · simp [starLoop, hx, h2]

theorem starLoop_isSome (c : CharClass) (k : List Char → Option Match) (s : List Char)
    (h : (k s).isSome) : (starLoop c k s).isSome := by
  cases s with
  | nil => exact h
  | cons x s =>
    by_cases hx : c.test x = true
    · simp only [starLoop, hx, if_true]
      cases starLoop c k s with
      | some m => rfl
      | none => exact h
    · simp only [starLoop, hx]
      exact h

theorem starLoop_some_inv (c : CharClass) (k : List Char → Option Match) (s : List Char)
    (m : Match) (h : starLoop c k s = some m) :
    ∃ w s', s = w ++ s' ∧ (∀ x ∈ w, c.test x = true) ∧ k s' = some m := by
  induction s with
  | nil => exact ⟨[], [], rfl, by simp, h⟩
  | cons x s ih =>
    by_cases hx : c.test x = true
    · simp only [starLoop, hx, if_true] at h
      cases hs : starLoop c k s with
      | some m' =>
        rw [hs] at h
        cases h
        obtain ⟨w, s', e, hw, hk⟩ := ih hs
        refine ⟨x :: w, s', by rw [e]; rfl, ?_, hk⟩
        intro y hy
        rcases List.mem_cons.1 hy with h1 | h1
        · rw [h1]; exact hx
        · exact hw y h1
      | none =>
        rw [hs] at h
        exact ⟨[], x :: s, rfl, by simp, h⟩
    · simp only [starLoop, hx] at h
      exact ⟨[], x :: s, rfl, by simp, h⟩

theorem matchAtoms_suffix (atoms : List Atom) (go gc s : List Char) (m : Match)
    (h : matchAtoms atoms go gc s = some m) :
    ∃ w, s = w ++ m.rest ∧ minLen atoms ≤ w.length := by
  induction atoms generalizing go gc s with
  | nil =>
    simp only [matchAtoms, Option.some.injEq] at h
    subst h
    exact ⟨[], rfl, Nat.le_refl _⟩
  | cons a k ih =>
    cases a with
    | one c =>
      cases s with
      | nil => simp [matchAtoms] at h
      | cons x s =>
        by_cases hx : c.test x = true
        · simp only [matchAtoms, hx, if_true] at h
          obtain ⟨w, e, hl⟩ := ih _ _ _ h
          exact ⟨x :: w, by rw [e]; rfl, by simp [minLen]; omega⟩
        · simp [matchAtoms, hx] at h
    | opt c =>
      cases s with
      | nil =>
        simp only [matchAtoms] at h
        obtain ⟨w, e, hl⟩ := ih _ _ _ h
        exact ⟨w, e, by simpa [minLen] using hl⟩
      | cons x s =>
        by_cases hx : c.test x = true
        · simp only [matchAtoms, hx, if_true] at h
          cases hs : matchAtoms k go gc s with
          | some m' =>
            rw [hs] at h
            cases h
            obtain ⟨w, e, hl⟩ := ih _ _ _ hs
            exact ⟨x :: w, by rw [e]; rfl, by simp [minLen]; omega⟩
          | none =>
            rw [hs] at h
            obtain ⟨w, e, hl⟩ := ih _ _ _ h
            exact ⟨w, e, by simpa [minLen] using hl⟩
        · simp only [matchAtoms, hx] at h
          obtain ⟨w, e, hl⟩ := ih _ _ _ h
          exact ⟨w, e, by simpa [minLen] using hl⟩
    | star c =>
      simp only [matchAtoms] at h
      obtain ⟨w1, s', e1, _, hk⟩ := starLoop_some_inv _ _ _ _ h
      obtain ⟨w, e, hl⟩ := ih _ _ _ hk
      exact ⟨w1 ++ w, by rw [e1, e, List.append_assoc], by simp [minLen]; omega⟩
    | gopen =>
      simp only [matchAtoms] at h
      obtain ⟨w, e, hl⟩ := ih _ _ _ h
      exact ⟨w, e, by simpa [minLen] using hl⟩
    | gclose =>
      simp only [matchAtoms] at h
      obtain ⟨w, e, hl⟩ := ih _ _ _ h
      exact ⟨w, e, by simpa [minLen] using hl⟩

theorem matchAt_suffix (re : Regexp) (s : List Char) (m : Match)
    (h : re.matchAt s = some m) : ∃ w, s = w ++ m.rest ∧ minLen re.atoms ≤ w.length :=
  matchAtoms_suffix _ _ _ _ _ h

theorem matchAt_nil (re : Regexp) (hpos : 0 < minLen re.atoms) : re.matchAt [] = none := by
  cases h : re.matchAt [] with
  | none => rfl
  | some m =>
    obtain ⟨w, e, hl⟩ := matchAt_suffix re [] m h
    have : w = [] := by
      cases w with
      | nil => rfl
      | cons x w => cases e
    subst this
    simp at hl
    omega

theorem loop_nil (re : Regexp) (repl : List Char) (hpos : 0 < minLen re.atoms) (k : Nat)
    (a : Bool) : replaceAllLoop re repl k a [] = [] := by
  cases k <;> simp [replaceAllLoop, matchAt_nil re hpos]

theorem loop_skip (re : Regexp) (repl : List Char) (w s : List Char) :
    replaceAllLoop re repl w.length true (w ++ s) = replaceAllLoop re repl 0 true s := by
  induction w with
  | nil => rfl
  | cons x w ih =>
    simp only [List.length_cons, List.cons_append, replaceAllLoop]
    exact ih

theorem loop_cons_none (re : Regexp) (repl : List Char) (a : Bool) (c : Char)
    (t : List Char) (h : re.matchAt (c :: t) = none) :
    replaceAllLoop re repl 0 a (c :: t) = c :: replaceAllLoop re repl 0 false t := by
  simp [replaceAllLoop, h]

theorem loop_flag (re : Regexp) (repl : List Char) (hpos : 0 < minLen re.atoms)
    (s : List Char) :
    replaceAllLoop re repl 0 true s = replaceAllLoop re repl 0 false s := by
  cases s with
  | nil => rw [loop_nil re repl hpos, loop_nil re repl hpos]
  | cons c t =>
    cases h : re.matchAt (c :: t) with
    | none => rw [loop_cons_none _ _ _ _ _ h, loop_cons_none _ _ _ _ _ h]
    | some m =>
      obtain ⟨w, e, hl⟩ := matchAt_suffix re _ m h
      have hne : (c :: t).length - m.rest.length ≠ 0 := by
        have := congrArg List.length e
        simp only [List.length_append] at this
        omega
      simp only [replaceAllLoop, h, hne, if_false]

theorem loop_some (re : Regexp) (repl : List Char) (hpos : 0 < minLen re.atoms) (a : Bool)
    (s : List Char) (m : Match) (h : re.matchAt s = some m) :
    replaceAllLoop re repl 0 a s
      = replacement repl s m ++ replaceAllLoop re repl 0 false m.rest := by
  obtain ⟨w, e, hl⟩ := matchAt_suffix re _ m h
  cases w with
  | nil => simp at hl; omega
  | cons c w =>
    have hs : s = c :: (w ++ m.rest) := e
    have hlen : (c :: (w ++ m.rest)).length - m.rest.length = w.length + 1 := by
      simp only [List.length_cons, List.length_append]; omega
    rw [← loop_flag re repl hpos m.rest, ← loop_skip re repl w m.rest]
    subst hs
    simp only [replaceAllLoop, h, hlen]
    simp

theorem expand_plain (whole g1 : List Char) (t : List Char) (n : Nat)
    (h : '$' ∉ t) (hn : t.length < n) : expand whole g1 n t = t := by
  induction t generalizing n with
  | nil =>
    cases n with
    | zero => simp at hn
    | succ n => rfl
  | cons c t ih =>
    cases n with
    | zero => simp at hn
    | succ n =>
      simp only [List.mem_cons, not_or] at h
      have hc : c ≠ '$' := fun e => h.1 e.symm
      have := ih n h.2 (by simpa using hn)
      unfold expand
      split
      · simp_all
      · simp_all
      · simp_all
      · rename_i heq
        exact absurd (List.cons.inj heq).1 hc
      · rename_i hn1 heq
        simp only [List.cons.injEq] at heq
        have e1 := Nat.succ.inj hn1
        rw [← heq.1, ← heq.2, ← e1, this]

theorem replacement_plain (repl s : List Char) (m : Match) (h : '$' ∉ repl) :
    replacement repl s m = repl :=
  expand_plain _ _ _ _ h (Nat.lt_succ_self _)

/-- No match anywhere: the text is left as it is. -/
theorem loop_id (re : Regexp) (repl : List Char) (hpos : 0 < minLen re.atoms) (a : Bool)
    (s : List Char) (h : ∀ v, v <:+ s → re.matchAt v = none) :
    replaceAllLoop re repl 0 a s = s := by
  induction s generalizing a with
  | nil => exact loop_nil re repl hpos 0 a
  | cons c t ih =>
    rw [loop_cons_none _ _ _ _ _ (h _ (List.suffix_refl _)),
      ih false (fun v hv => h v (hv.trans (List.suffix_cons c t)))]

/-! ## Lemmas on the rewriting of image references -/

theorem infix_append_of_head_not_mem (x : Char) (Q A B : List Char) (h : x ∉ A)
    (hi : (x :: Q) <:+: A ++ B) : (x :: Q) <:+: B := by
  induction A with
  | nil => exact hi
  | cons a A ih =>
    simp only [List.mem_cons, not_or] at h
    rw [List.cons_append, List.infix_cons_iff] at hi
    rcases hi with hp | hi
    · rw [List.prefix_cons_iff] at hp
      rcases hp with hp | ⟨t, ht, _⟩
      · cases hp
      · exact absurd (List.cons.inj ht).1 h.1
    · exact ih h.2 hi

theorem loop_head_part (re : Regexp) (repl : List Char) (hpos : 0 < minLen re.atoms)
    (hplain : '$' ∉ repl) (r0 : Char) (repl' : List Char) (hr : repl = r0 :: repl')
    (Q s : List Char) (a : Bool) (hQ : r0 ∉ Q)
    (h : Q <+: replaceAllLoop re repl 0 a s) : Q <+: s := by
  induction s generalizing Q a with
  | nil =>
    rw [loop_nil re repl hpos] at h
    exact h
  | cons c t ih =>
    cases hm : re.matchAt (c :: t) with
    | none =>
      rw [loop_cons_none _ _ _ _ _ hm, List.prefix_cons_iff] at h
      rcases h with h | ⟨Q', e, hq⟩
      · rw [h]; exact List.nil_prefix
      · subst e
        simp only [List.mem_cons, not_or] at hQ
        exact (List.cons_prefix_cons).2 ⟨rfl, ih Q' false hQ.2 hq⟩
    | some m =>
      rw [loop_some re repl hpos _ _ m hm, replacement_plain _ _ _ hplain, hr,
        List.cons_append, List.prefix_cons_iff] at h
      rcases h with h | ⟨Q', e, _⟩
      · rw [h]; exact List.nil_prefix
      · subst e
        simp at hQ

theorem loop_no_occurrence (re : Regexp) (repl : List Char) (hpos : 0 < minLen re.atoms)
    (hplain : '$' ∉ repl) (r0 : Char) (repl' : List Char) (hr : repl = r0 :: repl')
    (p0 : Char) (P' : List Char) (hp0 : p0 ∉ repl) (hr0 : r0 ∉ p0 :: P')
    (hc : ∀ s, (p0 :: P') <+: s → re.matchAt s ≠ none) :
    ∀ (n : Nat) (s : List Char) (a : Bool), s.length ≤ n →
      ¬ (p0 :: P') <:+: replaceAllLoop re repl 0 a s := by
  intro n
  induction n with
  | zero =>
    intro s a hs h
    have : s = [] := List.length_eq_zero.1 (Nat.le_zero.1 hs)
    subst this
    rw [loop_nil re repl hpos] at h
    simp at h
  | succ n ih =>
    intro s a hs h
    cases s with
    | nil =>
      rw [loop_nil re repl hpos] at h
      simp at h
    | cons c t =>
      cases hm : re.matchAt (c :: t) with
      | none =>
        have hpre := h
        rw [loop_cons_none _ _ _ _ _ hm, List.infix_cons_iff] at h
        rcases h with h | h
        · rw [← loop_cons_none _ _ a _ _ hm] at h
          exact hc _ (loop_head_part re repl hpos hplain r0 repl' hr _ _ a hr0 h) hm
        · exact ih t false (by simpa using hs) h
      | some m =>
        obtain ⟨w, e, hl⟩ := matchAt_suffix re _ m hm
        rw [loop_some re repl hpos _ _ m hm, replacement_plain _ _ _ hplain] at h
        have h2 := infix_append_of_head_not_mem _ _ _ _ hp0 h
        refine ih m.rest false ?_ h2
        have := congrArg List.length e
        simp only [List.length_append, List.length_cons] at this hs
        omega

theorem loop_has_replacement (re : Regexp) (repl : List Char) (hpos : 0 < minLen re.atoms)
    (hplain : '$' ∉ repl) (P : List Char) (hP : P ≠ [])
    (hc : ∀ s, P <+: s → re.matchAt s ≠ none) (s : List Char) (a : Bool)
    (h : P <:+: s) : repl <:+: replaceAllLoop re repl 0 a s := by
  induction s generalizing a with
  | nil => exact absurd (List.infix_nil.1 h) hP
  | cons c t ih =>
    cases hm : re.matchAt (c :: t) with
    | none =>
      rw [loop_cons_none _ _ _ _ _ hm]
      rw [List.infix_cons_iff] at h
      rcases h with h | h
      · exact absurd hm (hc _ h)
      · exact (ih false h).trans (List.infix_cons (List.infix_refl _))
    | some m =>
      rw [loop_some re repl hpos _ _ m hm, replacement_plain _ _ _ hplain]
      exact (List.prefix_append _ _).isInfix

theorem fooRe_compiled : MustCompile ("[^\"]*" ++ "foo/bar.png") = some fooRe := by decide

theorem fooRe_complete (s : List Char) (h : "foo/bar.png".data <+: s) :
    fooRe.matchAt s ≠ none := by
  obtain ⟨r, rfl⟩ := h
  have : (fooRe.matchAt ("foo/bar.png".data ++ r)).isSome := by
    apply starLoop_isSome
    simp [matchAtoms, CharClass.test]
  intro hn
  rw [hn] at this
  cases this

theorem barRe_compiled : MustCompile ("[^\"]*" ++ "bar.png") = some barRe := by decide

theorem rewriteImages_foo (content : String) :
    rewriteImages ["foo/bar.png"] content
      = some (String.mk (replaceAllLoop fooRe "images/bar.png".data 0 false content.data)) := by
  have h1 : imagePathOf "foo/bar.png" = "bar.png" := by decide
  simp only [rewriteImages, List.foldlM, fooRe_compiled, h1]
  rfl

theorem rewriteImages_bar (content : String) :
    rewriteImages ["bar.png"] content
      = some (String.mk (replaceAllLoop barRe "images/bar.png".data 0 false content.data)) := by
  have h1 : imagePathOf "bar.png" = "bar.png" := by decide
  simp only [rewriteImages, List.foldlM, barRe_compiled, h1]
  rfl

theorem barRe_quoted (p : List Char) (hp : '"' ∉ p) :
    replaceAllLoop barRe "images/bar.png".data 0 false
        ('"' :: (p ++ "bar.png\"".data))
      = "\"images/bar.png\"".data := by
  have hpos : 0 < minLen barRe.atoms := by decide
  have hplain : '$' ∉ "images/bar.png".data := by decide
  have h0 : barRe.matchAt ('"' :: (p ++ "bar.png\"".data)) = none := by
    simp [Regexp.matchAt, barRe, matchAtoms, starLoop, CharClass.test]
  rw [loop_cons_none _ _ _ _ _ h0]
  have h1 : barRe.matchAt (p ++ "bar.png\"".data)
      = some ⟨p ++ "bar.png\"".data, p ++ "bar.png\"".data, ['"']⟩ := by
    simp only [Regexp.matchAt, barRe, matchAtoms]
    apply starLoop_append_some
    · intro x hx
      have : x ≠ '"' := fun e => hp (e ▸ hx)
      simp [CharClass.test, this]
    · simp [starLoop, matchAtoms, CharClass.test]
  rw [loop_some _ _ hpos _ _ _ h1, replacement_plain _ _ _ hplain]
  have h2 : barRe.matchAt ['"'] = none := by decide
  rw [loop_cons_none _ _ _ _ _ h2, loop_nil _ _ hpos]
  rfl

/-! ## Lemmas on the expressions of `purifyHTML` -/

theorem matchAtoms_one_cons (c : CharClass) (k : List Atom) (go gc : List Char) (x : Char)
    (s : List Char) :
    matchAtoms (.one c :: k) go gc (x :: s)
      = if c.test x then matchAtoms k go gc s else none := rfl

theorem matchAtoms_one_nil (c : CharClass) (k : List Atom) (go gc : List Char) :
    matchAtoms (.one c :: k) go gc [] = none := rfl

theorem matchAtoms_opt_cons (c : CharClass) (k : List Atom) (go gc : List Char) (x : Char)
    (s : List Char) :
    matchAtoms (.opt c :: k) go gc (x :: s)
      = if c.test x then
          match matchAtoms k go gc s with
          | some m => some m
          | none => matchAtoms k go gc (x :: s)
        else matchAtoms k go gc (x :: s) := rfl

theorem matchAtoms_opt_nil (c : CharClass) (k : List Atom) (go gc : List Char) :
    matchAtoms (.opt c :: k) go gc [] = matchAtoms k go gc [] := rfl

theorem matchAtoms_star (c : CharClass) (k : List Atom) (go gc s : List Char) :
    matchAtoms (.star c :: k) go gc s = starLoop c (matchAtoms k go gc) s := by
  cases s <;> rfl

theorem matchAtoms_gopen (k : List Atom) (go gc s : List Char) :
    matchAtoms (.gopen :: k) go gc s = matchAtoms k s gc s := by
  cases s <;> rfl

theorem matchAtoms_gclose (k : List Atom) (go gc s : List Char) :
    matchAtoms (.gclose :: k) go gc s = matchAtoms k go s s := by
  cases s <;> rfl

theorem matchAtoms_lits (name : List Char) (tail : List Atom) (go gc s : List Char) :
    matchAtoms (litAtoms name ++ tail) go gc s
      = match stripPrefix name s with
        | some r => matchAtoms tail go gc r
        | none => none := by
  induction name generalizing s with
  | nil => rfl
  | cons n name ih =>
    cases s with
    | nil => simp [litAtoms, matchAtoms, stripPrefix]
    | cons c s =>
      by_cases h : c = n
      · subst h
        have := ih s
        simp only [litAtoms] at this
        simp [litAtoms, matchAtoms, stripPrefix, CharClass.test, this]
      · simp [litAtoms, matchAtoms, stripPrefix, CharClass.test, h]

theorem stripPrefix_eq (name s b : List Char) (h : stripPrefix name s = some b) :
    s = name ++ b := by
  induction name generalizing s with
  | nil => simp [stripPrefix] at h; simp [h]
  | cons n name ih =>
    cases s with
    | nil => simp [stripPrefix] at h
    | cons c s =>
      by_cases hc : c = n
      · subst hc
        simp only [stripPrefix, if_true] at h
        rw [ih s h]; rfl
      · simp [stripPrefix, hc] at h

theorem stripPrefix_append (name r t : List Char) (h : '>' ∉ name) :
    stripPrefix name (r ++ '>' :: t) = (stripPrefix name r).map (fun b => b ++ '>' :: t) := by
  induction name generalizing r with
  | nil => simp [stripPrefix]
  | cons n name ih =>
    simp only [List.mem_cons, not_or] at h
    cases r with
    | nil =>
      have : ¬ '>' = n := h.1
      simp [stripPrefix, this]
    | cons c r =>
      by_cases hc : c = n
      · simp [stripPrefix, hc, ih r h.2]
      · simp [stripPrefix, hc]

theorem skipSpace_append (r t : List Char) :
    skipSpace (r ++ '>' :: t) = skipSpace r ++ '>' :: t := by
  cases r with
  | nil => simp [skipSpace, CharClass.test]
  | cons x r => by_cases h : CharClass.space.test x = true <;> simp [skipSpace, h]

theorem skipSpace_suffix (r : List Char) : skipSpace r <:+ r := by
  cases r with
  | nil => exact List.suffix_refl _
  | cons x r =>
    by_cases h : CharClass.space.test x = true
    · simp only [skipSpace, h, if_true]; exact List.suffix_cons x r
    · simp only [skipSpace, h]; exact List.suffix_refl _

theorem matchAtoms_opt_space (n0 : Char) (name : List Char) (tail : List Atom)
    (go gc r : List Char) (hn : CharClass.space.test n0 = false) :
    matchAtoms (.opt .space :: (litAtoms (n0 :: name) ++ tail)) go gc r
      = matchAtoms (litAtoms (n0 :: name) ++ tail) go gc (skipSpace r) := by
  cases r with
  | nil => rw [matchAtoms_opt_nil]; rfl
  | cons x r =>
    by_cases hx : CharClass.space.test x = true
    · have hne : ¬ x = n0 := fun e => by rw [e, hn] at hx; cases hx
      have h2 : matchAtoms (litAtoms (n0 :: name) ++ tail) go gc (x :: r) = none := by
        simp [litAtoms, matchAtoms, CharClass.test, hne]
      rw [matchAtoms_opt_cons, if_pos hx, h2]
      simp only [skipSpace, hx, if_true]
      cases matchAtoms (litAtoms (n0 :: name) ++ tail) go gc r <;> rfl
    · rw [matchAtoms_opt_cons, if_neg hx]
      simp only [skipSpace, hx]
      rfl

theorem tagBody_suffix (name u b : List Char) (h : tagBody name u = some b) : b <:+ u := by
  cases u with
  | nil => simp [tagBody] at h
  | cons c r =>
    by_cases hc : c = '<'
    · simp only [tagBody, hc, if_true] at h
      have h1 := stripPrefix_eq _ _ _ h
      have h2 : b <:+ skipSpace r := ⟨name, h1.symm⟩
      exact (h2.trans (skipSpace_suffix r)).trans (List.suffix_cons c r)
    · simp [tagBody, hc] at h

theorem tagBody_head (name u b : List Char) (h : tagBody name u = some b) :
    ∃ r, u = '<' :: r := by
  cases u with
  | nil => simp [tagBody] at h
  | cons c r =>
    by_cases hc : c = '<'
    · exact ⟨r, by rw [hc]⟩
    · simp [tagBody, hc] at h

theorem notIn_gt_test (x : Char) : (CharClass.notIn ['>']).test x = true ↔ x ≠ '>' := by
  simp [CharClass.test]

/-- The match of `<\s?name[^>]*>` at the head of a text whose first `>` comes
after `u`. -/
theorem tagRe_matchAt (n0 : Char) (name : List Char) (u t : List Char)
    (hn : CharClass.space.test n0 = false) (hgt : '>' ∉ n0 :: name) (hu : '>' ∉ u) :
    (tagRe (n0 :: name)).matchAt (u ++ '>' :: t)
      = if okTag (n0 :: name) u then some ⟨u ++ '>' :: t, u ++ '>' :: t, t⟩ else none := by
  cases u with
  | nil => simp [Regexp.matchAt, tagRe, matchAtoms, CharClass.test, okTag, tagBody]
  | cons c r =>
    by_cases hc : c = '<'
    · subst hc
      have hr : '>' ∉ r := fun h => hu (List.mem_cons_of_mem _ h)
      have ht : (CharClass.lit '<').test '<' = true := by decide
      rw [List.cons_append]
      simp only [Regexp.matchAt, tagRe, okTag, tagBody, if_true]
      rw [matchAtoms_one_cons, if_pos ht, matchAtoms_opt_space _ _ _ _ _ _ hn, matchAtoms_lits,
        skipSpace_append, stripPrefix_append _ _ _ hgt]
      cases hb : stripPrefix (n0 :: name) (skipSpace r) with
      | none => simp
      | some b =>
        have hbs0 : b <:+ skipSpace r := ⟨n0 :: name, (stripPrefix_eq _ _ _ hb).symm⟩
        have hbs : b <:+ r := hbs0.trans (skipSpace_suffix r)
        have hbgt : ∀ x ∈ b, (CharClass.notIn ['>']).test x = true := by
          intro x hx
          rw [notIn_gt_test]
          intro e
          exact hr (hbs.subset (e ▸ hx))
        simp only [Option.map_some', Option.isSome_some, if_true]
        rw [matchAtoms_star]
        apply starLoop_append_some _ _ _ _ _ hbgt
        simp [starLoop, matchAtoms, CharClass.test]
    · have : (c == '<') = false := by simpa using hc
      simp [Regexp.matchAt, tagRe, matchAtoms, CharClass.test, okTag, tagBody, hc, this]

theorem imgTail_none (go gc t : List Char) (ht : ∀ t', t ≠ '>' :: t') :
    starLoop (.notIn ['>'])
        (matchAtoms [.one (.notIn ['/']), .gclose, .one (.lit '>')] go gc) ('>' :: t)
      = none := by
  rw [starLoop_cons_fail _ _ _ _ (by decide), matchAtoms_one_cons, if_pos (by decide),
    matchAtoms_gclose]
  cases t with
  | nil => rfl
  | cons y t' =>
    have hy : ¬ y = '>' := fun e => ht t' (by rw [e])
    simp [matchAtoms, CharClass.test, hy]

theorem imgTail (go gc b t : List Char) (hb : '>' ∉ b) (ht : ∀ t', t ≠ '>' :: t') :
    starLoop (.notIn ['>'])
        (matchAtoms [.one (.notIn ['/']), .gclose, .one (.lit '>')] go gc) (b ++ '>' :: t)
      = match b.getLast? with
        | some x => if x != '/' then some ⟨go, '>' :: t, t⟩ else none
        | none => none := by
  rcases List.eq_nil_or_concat' b with hnil | ⟨b0, x, hbx⟩
  · subst hnil
    exact imgTail_none go gc t ht
  · subst hbx
    have hxgt : x ≠ '>' := fun e => hb (by simp [e])
    have hb0 : ∀ y ∈ b0, (CharClass.notIn ['>']).test y = true := by
      intro y hy
      rw [notIn_gt_test]
      intro e
      exact hb (e ▸ List.mem_append_left _ hy)
    have hlast : (b0 ++ [x]).getLast? = some x := by simp
    rw [hlast]
    simp only []
    by_cases hx : x = '/'
    · subst hx
      simp only [bne_self_eq_false, Bool.false_eq_true, if_false]
      apply starLoop_append_none _ _ _ _ (imgTail_none go gc t ht)
      intro v hv hs
      cases v with
      | nil => exact absurd rfl hv
      | cons v0 v' =>
        cases v' with
        | nil =>
          have : v0 = '/' := by
            obtain ⟨p, hp⟩ := hs
            have := congrArg List.getLast? hp
            simpa using this
          subst this
          simp [matchAtoms, CharClass.test]
        | cons y v'' =>
          have hy : y ∈ b0 ++ ['/'] := hs.subset (by simp)
          have hyg : ¬ y = '>' := fun e => hb (e ▸ hy)
          rw [List.cons_append, matchAtoms_one_cons]
          split
          · rw [matchAtoms_gclose, List.cons_append, matchAtoms_one_cons]
            simp [CharClass.test, hyg]
          · rfl
    · have hne : (x != '/') = true := by simpa using hx
      rw [hne, if_pos rfl, List.append_assoc, List.singleton_append]
      apply starLoop_append_some _ _ _ _ _ hb0
      have h1 : (CharClass.notIn ['>']).test x = true := (notIn_gt_test x).2 hxgt
      have h2 : (CharClass.notIn ['/']).test x = true := by simp [CharClass.test, hx]
      simp only [starLoop, h1, if_true]
      have h0 := imgTail_none go gc t ht
      simp only [starLoop] at h0
      rw [h0]
      simp [matchAtoms, CharClass.test, hx]

theorem opt_match_if (o : Option Char) (M : Match) :
    (match o with
      | some x => if (x != '/') = true then some M else none
      | none => none)
      = if (match o with
            | some x => x != '/'
            | none => false) = true then some M else none := by
  cases o <;> simp

/-- The match of `<(\s?img[^>]*[^\/])>` at the head of a text whose first `>`
comes after `u` and is not followed by another `>`. -/
theorem imgRe_matchAt (u t : List Char) (hu : '>' ∉ u) (ht : ∀ t', t ≠ '>' :: t') :
    imgRe.matchAt (u ++ '>' :: t)
      = if okImg u then some ⟨u.tail ++ '>' :: t, '>' :: t, t⟩ else none := by
  cases u with
  | nil => simp [Regexp.matchAt, imgRe, matchAtoms, CharClass.test, okImg, tagBody]
  | cons c r =>
    by_cases hc : c = '<'
    · subst hc
      have hr : '>' ∉ r := fun h => hu (List.mem_cons_of_mem _ h)
      have ht' : (CharClass.lit '<').test '<' = true := by decide
      have hi : CharClass.space.test 'i' = false := by decide
      have hgt : '>' ∉ ['i', 'm', 'g'] := by decide
      rw [List.cons_append]
      simp only [Regexp.matchAt, imgRe, okImg, tagBody, if_true, List.tail_cons]
      rw [matchAtoms_one_cons, if_pos ht', matchAtoms_gopen]
      have e : [Atom.opt CharClass.space, Atom.one (CharClass.lit 'i'),
          Atom.one (CharClass.lit 'm'), Atom.one (CharClass.lit 'g'),
          Atom.star (CharClass.notIn ['>']), Atom.one (CharClass.notIn ['/']), Atom.gclose,
          Atom.one (CharClass.lit '>')]
          = Atom.opt CharClass.space :: (litAtoms ['i', 'm', 'g'] ++
              [Atom.star (CharClass.notIn ['>']), Atom.one (CharClass.notIn ['/']), Atom.gclose,
               Atom.one (CharClass.lit '>')]) := rfl
      rw [e, matchAtoms_opt_space _ _ _ _ _ _ hi, matchAtoms_lits, skipSpace_append,
        stripPrefix_append _ _ _ hgt]
      cases hb : stripPrefix ['i', 'm', 'g'] (skipSpace r) with
      | none => simp
      | some b =>
        have hbs0 : b <:+ skipSpace r := ⟨['i', 'm', 'g'], (stripPrefix_eq _ _ _ hb).symm⟩
        have hbs : b <:+ r := hbs0.trans (skipSpace_suffix r)
        have hbgt : '>' ∉ b := fun h => hr (hbs.subset h)
        simp only [Option.map_some']
        rw [matchAtoms_star, imgTail _ _ _ _ hbgt ht]
        exact opt_match_if _ _
    · have : (c == '<') = false := by simpa using hc
      simp [Regexp.matchAt, imgRe, matchAtoms, CharClass.test, okImg, tagBody, hc, this]

theorem expand_img (whole g1 : List Char) :
    expand whole g1 ("<${1} />".data.length + 1) "<${1} />".data
      = '<' :: (g1 ++ " />".data) := by
  simp [expand, extract, isNameChar, List.takeWhile, List.dropWhile, Char.isAlphanum,
    Char.isAlpha, Char.isDigit, Char.isUpper, Char.isLower]

theorem replacement_img (r t : List Char) :
    replacement "<${1} />".data ('<' :: r ++ '>' :: t) ⟨r ++ '>' :: t, '>' :: t, t⟩
      = ('<' :: r ++ " /".data) ++ ['>'] := by
  have hg : (⟨r ++ '>' :: t, '>' :: t, t⟩ : Match).group = r := by
    simp [Match.group]
  rw [replacement, hg, expand_img]
  simp

/-- The loop of `replaceAll` on a text whose first `>` comes after `u`, for
an expression whose matches start before a `>` and end with it. -/
theorem seg_loop (re : Regexp) (repl : List Char) (hpos : 0 < minLen re.atoms)
    (ok : List Char → Bool) (out : List Char → List Char) (good : List Char → Prop)
    (hnil : ok [] = false)
    (hb : ∀ u t, '>' ∉ u → good t →
      if ok u then ∃ m, re.matchAt (u ++ '>' :: t) = some m ∧ m.rest = t
          ∧ replacement repl (u ++ '>' :: t) m = out u ++ ['>']
      else re.matchAt (u ++ '>' :: t) = none)
    (u t : List Char) (a : Bool) (hu : '>' ∉ u) (ht : good t) :
    replaceAllLoop re repl 0 a (u ++ '>' :: t)
      = segRewrite ok out u ++ '>' :: replaceAllLoop re repl 0 false t := by
  induction u generalizing a with
  | nil =>
    have h := hb [] t hu ht
    rw [hnil] at h
    simp only [Bool.false_eq_true, if_false, List.nil_append] at h
    rw [List.nil_append, loop_cons_none _ _ _ _ _ h]
    rfl
  | cons c v ih =>
    have hv : '>' ∉ v := fun h => hu (List.mem_cons_of_mem _ h)
    have h := hb (c :: v) t hu ht
    by_cases hok : ok (c :: v) = true
    · rw [if_pos hok] at h
      obtain ⟨m, hm, hrest, hrep⟩ := h
      rw [loop_some re repl hpos _ _ m hm, hrep, hrest]
      simp [segRewrite, hok]
    · rw [if_neg hok] at h
      rw [List.cons_append] at h ⊢
      rw [loop_cons_none _ _ _ _ _ h, ih false hv]
      simp [segRewrite, hok]

theorem matchAtoms_lit_mem (atoms : List Atom) (go gc s : List Char) (m : Match)
    (h : matchAtoms atoms go gc s = some m) (c : Char)
    (hc : Atom.one (.lit c) ∈ atoms) : c ∈ s := by
  induction atoms generalizing go gc s m with
  | nil => cases hc
  | cons a k ih =>
    cases a with
    | one c' =>
      cases s with
      | nil => rw [matchAtoms_one_nil] at h; cases h
      | cons x s =>
        rw [matchAtoms_one_cons] at h
        by_cases hx : c'.test x = true
        · rw [if_pos hx] at h
          rcases List.mem_cons.1 hc with h1 | h1
          · have : c' = .lit c := by injection h1 with h2; exact h2.symm
            subst this
            have : x = c := by simpa [CharClass.test] using hx
            simp [this]
          · exact List.mem_cons_of_mem _ (ih _ _ _ _ h h1)
        · rw [if_neg hx] at h; cases h
    | opt c' =>
      have hk : Atom.one (.lit c) ∈ k := by
        rcases List.mem_cons.1 hc with h1 | h1
        · cases h1
        · exact h1
      cases s with
      | nil => rw [matchAtoms_opt_nil] at h; exact ih _ _ _ _ h hk
      | cons x s =>
        rw [matchAtoms_opt_cons] at h
        by_cases hx : c'.test x = true
        · rw [if_pos hx] at h
          cases hs : matchAtoms k go gc s with
          | some m' => exact List.mem_cons_of_mem _ (ih _ _ _ _ hs hk)
          | none => rw [hs] at h; exact ih _ _ _ _ h hk
        · rw [if_neg hx] at h; exact ih _ _ _ _ h hk
    | star c' =>
      have hk : Atom.one (.lit c) ∈ k := by
        rcases List.mem_cons.1 hc with h1 | h1
        · cases h1
        · exact h1
      rw [matchAtoms_star] at h
      obtain ⟨w, s', e, _, hk'⟩ := starLoop_some_inv _ _ _ _ h
      rw [e]
      exact List.mem_append_right _ (ih _ _ _ _ hk' hk)
    | gopen =>
      have hk : Atom.one (.lit c) ∈ k := by
        rcases List.mem_cons.1 hc with h1 | h1
        · cases h1
        · exact h1
      rw [matchAtoms_gopen] at h
      exact ih _ _ _ _ h hk
    | gclose =>
      have hk : Atom.one (.lit c) ∈ k := by
        rcases List.mem_cons.1 hc with h1 | h1
        · cases h1
        · exact h1
      rw [matchAtoms_gclose] at h
      exact ih _ _ _ _ h hk

theorem matchAt_none_of_lit (re : Regexp) (c : Char) (hc : Atom.one (.lit c) ∈ re.atoms)
    (s : List Char) (hs : c ∉ s) : re.matchAt s = none := by
  cases h : re.matchAt s with
  | none => rfl
  | some m => exact absurd (matchAtoms_lit_mem _ _ _ _ _ h c hc) hs

theorem loop_free (re : Regexp) (repl : List Char) (hpos : 0 < minLen re.atoms) (c : Char)
    (hc : Atom.one (.lit c) ∈ re.atoms) (a : Bool) (s : List Char) (hs : c ∉ s) :
    replaceAllLoop re repl 0 a s = s :=
  loop_id re repl hpos a s
    (fun v hv => matchAt_none_of_lit re c hc v (fun h => hs (hv.subset h)))

theorem imgRe_pos : 0 < minLen imgRe.atoms := by decide

theorem tagRe_pos (name : List Char) : 0 < minLen (tagRe name).atoms := by
  simp [tagRe, minLen]

theorem tagRe_gt (name : List Char) : Atom.one (.lit '>') ∈ (tagRe name).atoms := by
  simp [tagRe]

theorem imgPass_free (s : List Char) (hs : '>' ∉ s) : imgPass s = s :=
  loop_free imgRe _ imgRe_pos '>' (by decide) false s hs

theorem tagPass_free (name s : List Char) (hs : '>' ∉ s) : tagPass name s = s :=
  loop_free (tagRe name) _ (tagRe_pos name) '>' (tagRe_gt name) false s hs

theorem imgPass_seg (u t : List Char) (hu : '>' ∉ u) (ht : ∀ t', t ≠ '>' :: t') :
    imgPass (u ++ '>' :: t) = segImg u ++ '>' :: imgPass t := by
  refine seg_loop imgRe _ imgRe_pos okImg (fun v => v ++ [' ', '/'])
    (fun t => ∀ t', t ≠ '>' :: t') rfl ?_ u t false hu ht
  intro u t hu ht
  by_cases hok : okImg u = true
  · rw [if_pos hok]
    refine ⟨_, by rw [imgRe_matchAt u t hu ht, if_pos hok], rfl, ?_⟩
    cases u with
    | nil => cases hok
    | cons c r =>
      have hc : c = '<' := by
        by_contra hne
        simp [okImg, tagBody, hne] at hok
      subst hc
      rw [List.tail_cons]
      exact replacement_img r t
  · rw [if_neg hok, imgRe_matchAt u t hu ht, if_neg hok]

theorem tagPass_seg (n0 : Char) (name : List Char) (hn : CharClass.space.test n0 = false)
    (hgt : '>' ∉ n0 :: name) (hd : '$' ∉ n0 :: name) (u t : List Char) (hu : '>' ∉ u) :
    tagPass (n0 :: name) (u ++ '>' :: t)
      = segTag (n0 :: name) u ++ '>' :: tagPass (n0 :: name) t := by
  refine seg_loop (tagRe (n0 :: name)) _ (tagRe_pos _) (okTag (n0 :: name))
    (fun _ => '<' :: ((n0 :: name) ++ ['/'])) (fun _ => True) rfl ?_ u t false hu trivial
  intro u t hu _
  by_cases hok : okTag (n0 :: name) u = true
  · rw [if_pos hok]
    refine ⟨_, by rw [tagRe_matchAt n0 name u t hn hgt hu, if_pos hok], rfl, ?_⟩
    rw [replacement_plain]
    · simp
    · intro h
      rcases List.mem_cons.1 h with h | h
      · exact absurd h (by decide)
      · rcases List.mem_append.1 h with h | h
        · exact hd h
        · exact absurd h (by decide)
  · rw [if_neg hok, tagRe_matchAt n0 name u t hn hgt hu, if_neg hok]

theorem purifyHTML_eq (content : String) :
    purifyHTML content
      = some (String.mk (tagPass ['h', 'r'] (tagPass ['b', 'r'] (imgPass content.data)))) := by
  have h1 : MustCompile ("<(\\s?" ++ "img" ++ "[^>]*[^\\/])>") = some imgRe := by decide
  have h2 : MustCompile ("<\\s?" ++ "br" ++ "[^>]*>") = some (tagRe ['b', 'r']) := by decide
  have h3 : MustCompile ("<\\s?" ++ "hr" ++ "[^>]*>") = some (tagRe ['h', 'r']) := by decide
  simp only [purifyHTML, List.foldlM, h1, h2, h3, bind, Option.bind, pure,
    Regexp.ReplaceAllString]
  rfl

theorem okTag_head (name v : List Char) (h : okTag name v = true) : ∃ r, v = '<' :: r := by
  cases hb : tagBody name v with
  | none => simp [okTag, hb] at h
  | some b => exact tagBody_head name v b hb

theorem okImg_head (v : List Char) (h : okImg v = true) : ∃ r, v = '<' :: r := by
  cases hb : tagBody ['i', 'm', 'g'] v with
  | none => simp [okImg, hb] at h
  | some b => exact tagBody_head _ v b hb

theorem segRewrite_no_lt (ok : List Char → Bool) (out : List Char → List Char)
    (hok : ∀ v, ok v = true → ∃ r, v = '<' :: r) (v : List Char) (hv : '<' ∉ v) :
    segRewrite ok out v = v := by
  induction v with
  | nil => rfl
  | cons c v ih =>
    simp only [List.mem_cons, not_or] at hv
    have : ok (c :: v) = false := by
      cases h : ok (c :: v) with
      | false => rfl
      | true =>
        obtain ⟨r, e⟩ := hok _ h
        exact absurd (List.cons.inj e).1.symm hv.1
    simp [segRewrite, this, ih hv.2]

theorem segRewrite_not_mem (ok : List Char → Bool) (out : List Char → List Char) (x : Char)
    (hout : ∀ v, x ∉ v → x ∉ out v) (u : List Char) (hu : x ∉ u) :
    x ∉ segRewrite ok out u := by
  induction u with
  | nil => simp [segRewrite]
  | cons c v ih =>
    by_cases h : ok (c :: v) = true
    · simp only [segRewrite, h, if_true]
      exact hout _ hu
    · simp only [List.mem_cons, not_or] at hu
      have e : segRewrite ok out (c :: v) = c :: segRewrite ok out v := by
        simp [segRewrite, h]
      rw [e, List.mem_cons, not_or]
      exact ⟨hu.1, ih hu.2⟩

theorem segImg_gt (u : List Char) (hu : '>' ∉ u) : '>' ∉ segImg u :=
  segRewrite_not_mem _ _ '>' (fun v hv => by simp [hv]) u hu

theorem segTag_gt (name u : List Char) (hn : '>' ∉ name) (hu : '>' ∉ u) :
    '>' ∉ segTag name u :=
  segRewrite_not_mem _ _ '>' (fun _ _ => by simp [hn]) u hu

/-- The three passes of `purifyHTML` on a text that ends with its only `>`. -/
theorem purify_segment (u : List Char) (hu : '>' ∉ u) :
    tagPass ['h', 'r'] (tagPass ['b', 'r'] (imgPass (u ++ ['>'])))
      = segTag ['h', 'r'] (segTag ['b', 'r'] (segImg u)) ++ ['>'] := by
  have e1 : imgPass [] = [] := rfl
  have e2 : tagPass ['b', 'r'] [] = [] := rfl
  have e3 : tagPass ['h', 'r'] [] = [] := rfl
  rw [imgPass_seg u [] hu (by simp), e1,
    tagPass_seg 'b' ['r'] (by decide) (by decide) (by decide) _ [] (segImg_gt u hu), e2,
    tagPass_seg 'h' ['r'] (by decide) (by decide) (by decide) _ []
      (segTag_gt _ _ (by decide) (segImg_gt u hu)), e3]

theorem segImg_cons_of_ne (c : Char) (v : List Char) (hc : c ≠ '<') :
    segImg (c :: v) = c :: segImg v := by
  simp [segImg, segRewrite, okImg, tagBody, hc]

theorem segTag_cons_of_ne (name : List Char) (c : Char) (v : List Char) (hc : c ≠ '<') :
    segTag name (c :: v) = c :: segTag name v := by
  simp [segTag, segRewrite, okTag, tagBody, hc]

theorem purify_hr (a : List Char) :
    segTag ['h', 'r'] (segTag ['b', 'r'] (segImg ('<' :: 'h' :: 'r' :: a)))
      = ['<', 'h', 'r', '/'] := by
  have h1 : segImg ('<' :: 'h' :: 'r' :: a) = '<' :: 'h' :: 'r' :: segImg a := by
    have : okImg ('<' :: 'h' :: 'r' :: a) = false := by
      simp [okImg, tagBody, skipSpace, CharClass.test, stripPrefix]
    rw [← segImg_cons_of_ne 'r' a (by decide), ← segImg_cons_of_ne 'h' _ (by decide)]
    simp [segImg, segRewrite, this]
  have h2 : segTag ['b', 'r'] ('<' :: 'h' :: 'r' :: segImg a)
      = '<' :: 'h' :: 'r' :: segTag ['b', 'r'] (segImg a) := by
    have : okTag ['b', 'r'] ('<' :: 'h' :: 'r' :: segImg a) = false := by
      simp [okTag, tagBody, skipSpace, CharClass.test, stripPrefix]
    rw [← segTag_cons_of_ne _ 'r' _ (by decide), ← segTag_cons_of_ne _ 'h' _ (by decide)]
    simp [segTag, segRewrite, this]
  rw [h1, h2]
  simp [segTag, segRewrite, okTag, tagBody, skipSpace, CharClass.test, stripPrefix]

theorem purify_br (a : List Char) :
    segTag ['h', 'r'] (segTag ['b', 'r'] (segImg ('<' :: 'b' :: 'r' :: a)))
      = ['<', 'b', 'r', '/'] := by
  have h1 : segImg ('<' :: 'b' :: 'r' :: a) = '<' :: 'b' :: 'r' :: segImg a := by
    have : okImg ('<' :: 'b' :: 'r' :: a) = false := by
      simp [okImg, tagBody, skipSpace, CharClass.test, stripPrefix]
    rw [← segImg_cons_of_ne 'r' a (by decide), ← segImg_cons_of_ne 'b' _ (by decide)]
    simp [segImg, segRewrite, this]
  have h2 : segTag ['b', 'r'] ('<' :: 'b' :: 'r' :: segImg a) = ['<', 'b', 'r', '/'] := by
    simp [segTag, segRewrite, okTag, tagBody, skipSpace, CharClass.test, stripPrefix]
  rw [h1, h2]
  decide

theorem purify_img (a : List Char) (hne : a ≠ []) (hlt : '<' ∉ a)
    (hlast : a.getLast? ≠ some '/') :
    segTag ['h', 'r'] (segTag ['b', 'r'] (segImg ('<' :: 'i' :: 'm' :: 'g' :: a)))
      = '<' :: 'i' :: 'm' :: 'g' :: (a ++ [' ', '/']) := by
  have h1 : segImg ('<' :: 'i' :: 'm' :: 'g' :: a) = '<' :: 'i' :: 'm' :: 'g' :: (a ++ [' ', '/']) := by
    have : okImg ('<' :: 'i' :: 'm' :: 'g' :: a) = true := by
      cases hg : a.getLast? with
      | none => exact absurd (List.getLast?_eq_none_iff.1 hg) hne
      | some x =>
        have hx : x ≠ '/' := fun e => hlast (by rw [hg, e])
        simp [okImg, tagBody, skipSpace, CharClass.test, stripPrefix, hg, hx]
    simp [segImg, segRewrite, this]
  have hlt2 : '<' ∉ 'i' :: 'm' :: 'g' :: (a ++ [' ', '/']) := by
    simp [hlt]
  have h2 : ∀ name : List Char, name = ['b', 'r'] ∨ name = ['h', 'r'] →
      segTag name ('<' :: 'i' :: 'm' :: 'g' :: (a ++ [' ', '/']))
        = '<' :: 'i' :: 'm' :: 'g' :: (a ++ [' ', '/']) := by
    intro name hname
    have hok : okTag name ('<' :: 'i' :: 'm' :: 'g' :: (a ++ [' ', '/'])) = false := by
      rcases hname with h | h <;> subst h <;>
        simp [okTag, tagBody, skipSpace, CharClass.test, stripPrefix]
    have := segRewrite_no_lt (okTag name) (fun _ => '<' :: (name ++ ['/']))
      (okTag_head name) _ hlt2
    simp only [segTag, segRewrite, hok]
    simp only [Bool.false_eq_true, if_false, List.cons.injEq, true_and]
    exact this
  rw [h1, h2 _ (Or.inl rfl), h2 _ (Or.inr rfl)]

/-! ## Lemmas on the idempotence of `purifyHTML` -/

theorem segRewrite_id (ok : List Char → Bool) (out : List Char → List Char) (w : List Char)
    (h : ∀ v, v <:+ w → ok v = true → out v = v) : segRewrite ok out w = w := by
  induction w with
  | nil => rfl
  | cons c w ih =>
    by_cases hok : ok (c :: w) = true
    · simp only [segRewrite, hok, if_true]
      exact h _ (List.suffix_refl _) hok
    · have := ih (fun v hv => h v (hv.trans (List.suffix_cons c w)))
      simp [segRewrite, hok, this]

theorem segRewrite_cases (ok : List Char → Bool) (out : List Char → List Char)
    (hnil : ok [] = false) (u : List Char) :
    (segRewrite ok out u = u ∧ ∀ v, v <:+ u → ok v = false)
    ∨ ∃ pre v, u = pre ++ v ∧ ok v = true
        ∧ (∀ q, q ≠ [] → q <:+ pre → ok (q ++ v) = false)
        ∧ segRewrite ok out u = pre ++ out v := by
  induction u with
  | nil =>
    left
    refine ⟨rfl, fun v hv => ?_⟩
    rw [List.suffix_nil.1 hv]; exact hnil
  | cons c u ih =>
    by_cases hok : ok (c :: u) = true
    · right
      refine ⟨[], c :: u, rfl, hok, ?_, by simp [segRewrite, hok]⟩
      intro q hq hs
      exact absurd (List.suffix_nil.1 hs) hq
    · have hokf : ok (c :: u) = false := by simpa using hok
      rcases ih with ⟨e, hall⟩ | ⟨pre, v, e, hv, hfirst, hr⟩
      · left
        refine ⟨by simp [segRewrite, hok, e], fun v hv => ?_⟩
        rcases List.suffix_cons_iff.1 hv with h | h
        · rw [h]; exact hokf
        · exact hall v h
      · right
        refine ⟨c :: pre, v, by rw [e]; rfl, hv, ?_, by simp [segRewrite, hok, hr]⟩
        intro q hq hs
        rcases List.suffix_cons_iff.1 hs with h | h
        · rw [h, List.cons_append, ← e]; exact hokf
        · exact hfirst q hq h

theorem segRewrite_ne_nil (ok : List Char → Bool) (out : List Char → List Char)
    (hout : ∀ v, out v ≠ []) (u : List Char) (hu : u ≠ []) : segRewrite ok out u ≠ [] := by
  cases u with
  | nil => exact absurd rfl hu
  | cons c v =>
    by_cases hok : ok (c :: v) = true
    · simp only [segRewrite, hok, if_true]; exact hout _
    · simp [segRewrite, hok]

theorem segImg_of_noImg (w : List Char) (h : NoImg w) : segImg w = w :=
  segRewrite_id _ _ w (fun v hv hok => by rw [h v hv] at hok; cases hok)

theorem segTag_of_onlyClosed (name w : List Char) (h : OnlyClosed name w) :
    segTag name w = w :=
  segRewrite_id _ _ w (fun v hv hok => (h v hv hok).symm)

theorem getLast?_of_suffix (v w : List Char) (hv : v ≠ []) (h : v <:+ w) :
    v.getLast? = w.getLast? := by
  obtain ⟨p, rfl⟩ := h
  rw [List.getLast?_append_of_ne_nil _ hv]

theorem noImg_of_last (w : List Char) (h : w.getLast? = some '/') : NoImg w := by
  intro v hv
  cases hb : tagBody ['i', 'm', 'g'] v with
  | none => simp [okImg, hb]
  | some b =>
    by_cases hbn : b = []
    · simp [okImg, hb, hbn]
    · have h1 : b.getLast? = some '/' := by
        rw [getLast?_of_suffix b w hbn ((tagBody_suffix _ _ _ hb).trans hv), h]
      simp [okImg, hb, h1]

theorem noImg_segImg (u : List Char) : NoImg (segImg u) := by
  rcases segRewrite_cases okImg (fun v => v ++ [' ', '/']) rfl u with
    ⟨e, hall⟩ | ⟨pre, v, _, _, _, hr⟩
  · intro v hv
    simp only [segImg] at hv
    rw [e] at hv
    exact hall v hv
  · apply noImg_of_last
    simp only [segImg]
    rw [hr, ← List.append_assoc]
    simp

theorem noImg_segTag (name x : List Char) (h : NoImg x) : NoImg (segTag name x) := by
  rcases segRewrite_cases (okTag name) (fun _ => '<' :: (name ++ ['/'])) rfl x with
    ⟨e, _⟩ | ⟨pre, v, _, _, _, hr⟩
  · simp only [segTag]; rw [e]; exact h
  · apply noImg_of_last
    simp only [segTag]
    rw [hr]
    have : pre ++ '<' :: (name ++ ['/']) = (pre ++ '<' :: name) ++ ['/'] := by simp
    rw [this, List.getLast?_append_of_ne_nil _ (by simp)]
    rfl

theorem stripPrefix_isSome_append_lt (name r z : List Char) (hlt : '<' ∉ name) :
    (stripPrefix name (r ++ '<' :: z)).isSome = (stripPrefix name r).isSome := by
  induction name generalizing r with
  | nil => simp [stripPrefix]
  | cons n name ih =>
    simp only [List.mem_cons, not_or] at hlt
    cases r with
    | nil =>
      have : ¬ '<' = n := hlt.1
      simp [stripPrefix, this]
    | cons c r =>
      by_cases hc : c = n
      · simp [stripPrefix, hc, ih r hlt.2]
      · simp [stripPrefix, hc]

theorem skipSpace_append_lt (r z : List Char) :
    skipSpace (r ++ '<' :: z) = skipSpace r ++ '<' :: z := by
  cases r with
  | nil => simp [skipSpace, CharClass.test]
  | cons x r => by_cases h : CharClass.space.test x = true <;> simp [skipSpace, h]

theorem okTag_append_lt (name q z : List Char) (hq : q ≠ []) (hlt : '<' ∉ name) :
    okTag name (q ++ '<' :: z) = okTag name q := by
  cases q with
  | nil => exact absurd rfl hq
  | cons c q =>
    by_cases hc : c = '<'
    · simp only [okTag, List.cons_append, tagBody, hc, if_true]
      rw [skipSpace_append_lt, stripPrefix_isSome_append_lt _ _ _ hlt]
    · simp [okTag, tagBody, hc]

theorem okTag_suffix_closed (name v : List Char) (hlt : '<' ∉ name)
    (hv : v <:+ '<' :: (name ++ ['/'])) (hok : okTag name v = true) :
    v = '<' :: (name ++ ['/']) := by
  rcases List.suffix_cons_iff.1 hv with h | h
  · exact h
  · obtain ⟨r, e⟩ := okTag_head name v hok
    have : '<' ∈ name ++ ['/'] := h.subset (by rw [e]; simp)
    rcases List.mem_append.1 this with h1 | h1
    · exact absurd h1 hlt
    · exact absurd h1 (by decide)

theorem suffix_append_cases (v pre T : List Char) (h : v <:+ pre ++ T) :
    v <:+ T ∨ ∃ q, q ≠ [] ∧ q <:+ pre ∧ v = q ++ T := by
  induction pre with
  | nil => left; exact h
  | cons c pre ih =>
    rcases List.suffix_cons_iff.1 h with h1 | h1
    · right
      exact ⟨c :: pre, by simp, List.suffix_refl _, h1⟩
    · rcases ih h1 with h2 | ⟨q, hq, hs, e⟩
      · left; exact h2
      · right; exact ⟨q, hq, hs.trans (List.suffix_cons c pre), e⟩

theorem onlyClosed_segTag (name x : List Char) (hlt : '<' ∉ name) :
    OnlyClosed name (segTag name x) := by
  rcases segRewrite_cases (okTag name) (fun _ => '<' :: (name ++ ['/'])) rfl x with
    ⟨e, hall⟩ | ⟨pre, v, _, hv, hfirst, hr⟩
  · intro v hv hok
    simp only [segTag] at hv
    rw [e] at hv
    rw [hall v hv] at hok
    cases hok
  · intro v' hv' hok
    simp only [segTag] at hv'
    rw [hr] at hv'
    rcases suffix_append_cases _ _ _ hv' with h | ⟨q, hq, hs, e⟩
    · exact okTag_suffix_closed name v' hlt h hok
    · obtain ⟨r, er⟩ := okTag_head name v hv
      have h1 := hfirst q hq hs
      rw [er, okTag_append_lt _ _ _ hq hlt] at h1
      rw [e, okTag_append_lt _ _ _ hq hlt, h1] at hok
      cases hok

theorem onlyClosed_br_segTag_hr (y : List Char) (h : OnlyClosed ['b', 'r'] y) :
    OnlyClosed ['b', 'r'] (segTag ['h', 'r'] y) := by
  rcases segRewrite_cases (okTag ['h', 'r']) (fun _ => '<' :: (['h', 'r'] ++ ['/'])) rfl y with
    ⟨e, _⟩ | ⟨pre, v, ey, hv, _, hr⟩
  · simp only [segTag]; rw [e]; exact h
  · intro v' hv' hok
    simp only [segTag] at hv'
    rw [hr] at hv'
    rcases suffix_append_cases _ _ _ hv' with h1 | ⟨q, hq, hs, e⟩
    · exfalso
      obtain ⟨r, er⟩ := okTag_head _ v' hok
      rcases List.suffix_cons_iff.1 h1 with h2 | h2
      · rw [h2] at hok
        revert hok; decide
      · have : '<' ∈ ['h', 'r'] ++ ['/'] := h2.subset (by rw [er]; simp)
        revert this; decide
    · exfalso
      obtain ⟨r, er⟩ := okTag_head _ v hv
      have hlt : '<' ∉ ['b', 'r'] := by decide
      rw [e, List.cons_append, okTag_append_lt _ _ _ hq hlt] at hok
      have h2 : okTag ['b', 'r'] (q ++ v) = true := by
        rw [er, okTag_append_lt _ _ _ hq hlt]; exact hok
      have h3 : q ++ v <:+ y := by
        rw [ey]
        obtain ⟨p, hp⟩ := hs
        exact ⟨p, by rw [← hp, List.append_assoc]⟩
      have h4 := h _ h3 h2
      -- `v` is a proper suffix of `<br/` that starts with `<`
      cases q with
      | nil => exact hq rfl
      | cons c q =>
        rw [List.cons_append] at h4
        have h5 : q ++ v = ['b', 'r'] ++ ['/'] := (List.cons.inj h4).2
        have : '<' ∈ ['b', 'r'] ++ ['/'] := by
          rw [← h5, er]; simp
        revert this; decide

theorem segPurify_idem (u : List Char) : segPurify (segPurify u) = segPurify u := by
  have hI : NoImg (segPurify u) :=
    noImg_segTag _ _ (noImg_segTag _ _ (noImg_segImg u))
  have hB : OnlyClosed ['b', 'r'] (segPurify u) :=
    onlyClosed_br_segTag_hr _ (onlyClosed_segTag _ _ (by decide))
  have hH : OnlyClosed ['h', 'r'] (segPurify u) := onlyClosed_segTag _ _ (by decide)
  have e1 := segImg_of_noImg _ hI
  have e2 := segTag_of_onlyClosed _ _ hB
  have e3 := segTag_of_onlyClosed _ _ hH
  show segTag ['h', 'r'] (segTag ['b', 'r'] (segImg (segPurify u))) = segPurify u
  rw [e1, e2, e3]

theorem split_at_gt (s : List Char) :
    '>' ∉ s ∨ ∃ u t, s = u ++ '>' :: t ∧ '>' ∉ u := by
  induction s with
  | nil => left; simp
  | cons c s ih =>
    by_cases hc : c = '>'
    · right; exact ⟨[], s, by rw [hc]; rfl, by simp⟩
    · rcases ih with h | ⟨u, t, e, hu⟩
      · left
        simp only [List.mem_cons, not_or]
        exact ⟨fun e => hc e.symm, h⟩
      · right
        refine ⟨c :: u, t, by rw [e]; rfl, ?_⟩
        simp only [List.mem_cons, not_or]
        exact ⟨fun e => hc e.symm, hu⟩

theorem purifyChars_free (s : List Char) (hs : '>' ∉ s) : purifyChars s = s := by
  rw [purifyChars, imgPass_free s hs, tagPass_free _ s hs, tagPass_free _ s hs]

theorem purifyChars_seg (u t : List Char) (hu : '>' ∉ u) (ht : ∀ t', t ≠ '>' :: t') :
    purifyChars (u ++ '>' :: t) = segPurify u ++ '>' :: purifyChars t := by
  rw [purifyChars, imgPass_seg u t hu ht,
    tagPass_seg 'b' ['r'] (by decide) (by decide) (by decide) _ _ (segImg_gt u hu),
    tagPass_seg 'h' ['r'] (by decide) (by decide) (by decide) _ _
      (segTag_gt _ _ (by decide) (segImg_gt u hu))]
  rfl

theorem segPurify_gt (u : List Char) (hu : '>' ∉ u) : '>' ∉ segPurify u :=
  segTag_gt _ _ (by decide) (segTag_gt _ _ (by decide) (segImg_gt u hu))

theorem segPurify_ne_nil (u : List Char) (hu : u ≠ []) : segPurify u ≠ [] :=
  segRewrite_ne_nil _ _ (fun _ => by simp) _
    (segRewrite_ne_nil _ _ (fun _ => by simp) _
      (segRewrite_ne_nil _ _ (fun _ => by simp) _ hu))

theorem Tame.tail_good {u t : List Char} (h : Tame (u ++ '>' :: t)) :
    ∀ t', t ≠ '>' :: t' := by
  intro t' e
  apply h
  rw [e]
  exact ⟨u, t', by simp⟩

theorem Tame.tail {u t : List Char} (h : Tame (u ++ '>' :: t)) : Tame t := by
  intro hi
  apply h
  obtain ⟨a, b, e⟩ := hi
  exact ⟨u ++ '>' :: a, b, by rw [← e]; simp⟩

theorem purifyChars_good (t : List Char) (hT : Tame t) (hg : ∀ t', t ≠ '>' :: t') :
    ∀ t', purifyChars t ≠ '>' :: t' := by
  rcases split_at_gt t with h | ⟨u, t1, e, hu⟩
  · rw [purifyChars_free t h]; exact hg
  · subst e
    have hune : u ≠ [] := by
      intro hnil
      rw [hnil] at hg
      exact hg t1 rfl
    rw [purifyChars_seg u t1 hu hT.tail_good]
    intro t' e
    have h1 := segPurify_ne_nil u hune
    have h2 := segPurify_gt u hu
    cases hs : segPurify u with
    | nil => exact h1 hs
    | cons x r =>
      rw [hs, List.cons_append] at e
      have : x = '>' := (List.cons.inj e).1
      apply h2
      rw [hs, this]
      simp

theorem purifyChars_idem_aux (n : Nat) :
    ∀ s : List Char, s.length ≤ n → Tame s → purifyChars (purifyChars s) = purifyChars s := by
  induction n with
  | zero =>
    intro s hs _
    have : s = [] := List.length_eq_zero.1 (Nat.le_zero.1 hs)
    subst this
    rfl
  | succ n ih =>
    intro s hs hT
    rcases split_at_gt s with h | ⟨u, t, e, hu⟩
    · rw [purifyChars_free s h, purifyChars_free s h]
    · subst e
      have hlen : t.length ≤ n := by
        simp only [List.length_append, List.length_cons] at hs
        omega
      rw [purifyChars_seg u t hu hT.tail_good,
        purifyChars_seg _ _ (segPurify_gt u hu) (purifyChars_good t hT.tail hT.tail_good),
        segPurify_idem, ih t hlen hT.tail]

theorem purifyChars_idem (s : List Char) (h : Tame s) :
    purifyChars (purifyChars s) = purifyChars s :=
  purifyChars_idem_aux s.length s (Nat.le_refl _) h

theorem purifyHTML_chars (content : String) :
    purifyHTML content = some (String.mk (purifyChars content.data)) :=
  purifyHTML_eq content

/-! ## Lemmas on the assembler as a whole -/

theorem fetchStylesheet_inner (urls : List String) (init : String) :
    urls.foldl (fun stylesheet stylesheetURL =>
        if stylesheet = "" then stylesheetURL else stylesheet) init
      = if init = "" then (urls.find? (fun u => u != "")).getD "" else init := by
  induction urls generalizing init with
  | nil => by_cases h : init = "" <;> simp [h]
  | cons u urls ih =>
    simp only [List.foldl_cons]
    rw [ih]
    by_cases h : init = ""
    · by_cases hu : u = ""
      · simp [h, hu]
      · simp [h, hu]
    · simp [h]

theorem fetchStylesheet_outer (iteration : List (Int × Chapter)) (init : String) :
    iteration.foldl (fun stylesheet entry =>
        entry.2.StylesheetsURL.foldl (fun stylesheet stylesheetURL =>
          if stylesheet = "" then stylesheetURL else stylesheet) stylesheet) init
      = if init = "" then
          ((iteration.flatMap (fun entry => entry.2.StylesheetsURL)).find?
            (fun u => u != "")).getD ""
        else init := by
  induction iteration generalizing init with
  | nil => by_cases h : init = "" <;> simp [h]
  | cons entry iteration ih =>
    simp only [List.foldl_cons, List.flatMap_cons, List.find?_append]
    rw [ih, fetchStylesheet_inner]
    by_cases h : init = ""
    · simp only [h, if_true]
      cases hf : entry.2.StylesheetsURL.find? (fun u => u != "") with
      | none => simp
      | some u =>
        have hu : u ≠ "" := by
          have := List.find?_some hf
          simpa using this
        simp [hu]
    · simp [h]

theorem fetchStylesheet_stylesheet (s : Safari) (id : String)
    (iteration : List (Int × Chapter)) :
    ((fetchStylesheet s id iteration).1.books.get id).stylesheet
      = ((iteration.flatMap (fun entry => entry.2.StylesheetsURL)).find?
          (fun u => u != "")).getD "" := by
  simp only [fetchStylesheet, GoMap.get_set_same]
  rw [fetchStylesheet_outer]
  simp

theorem find?_first_nonempty (pre post : List String) (u : String)
    (hpre : ∀ x ∈ pre, x = "") (hu : u ≠ "") :
    (pre ++ u :: post).find? (fun u => u != "") = some u := by
  induction pre with
  | nil => simp [hu]
  | cons x pre ih =>
    have hx : x = "" := hpre x (by simp)
    have := ih (fun y hy => hpre y (by simp [hy]))
    simp [hx, this]

theorem adjustOrder_eq (m : GoMap Int Chapter) :
    adjustOrderByChapterNumber m
      = ((List.range m.len).map (fun i => m.get (Int.ofNat i)), none) := by
  unfold adjustOrderByChapterNumber
  simp only []
  rw [foldl_append_singleton (fun i => m.get (Int.ofNat i))]
  simp

theorem dispatched_mem_inv (cs : List Chapter) (i : Nat) (c : Chapter)
    (h : (Int.ofNat i, c) ∈ dispatched cs) : cs[i]? = some c := by
  obtain ⟨p, hp, e⟩ := List.mem_map.1 h
  obtain ⟨j, x⟩ := p
  simp only [Prod.mk.injEq] at e
  have hj : j = i := Int.ofNat.inj e.1
  rw [← hj, ← e.2]
  exact List.mk_mem_enum_iff_getElem?.1 hp

theorem subperm_keys_nodup (cs : List Chapter) (arrival : List (Int × Chapter))
    (h : arrival.Subperm (dispatched cs)) : (arrival.map Prod.fst).Nodup := by
  obtain ⟨l, hp, hs⟩ := h
  have h1 : (l.map Prod.fst).Nodup := (hs.map Prod.fst).nodup (dispatched_keys_nodup cs)
  exact ((hp.map Prod.fst).nodup_iff).1 h1

theorem dispatched_length (cs : List Chapter) : (dispatched cs).length = cs.length := by
  simp [dispatched]

set_option maxRecDepth 100000

/-! ## Lemmas on the chapter documents -/

theorem isPrefixOf_append_sep (pat w v : List Char) (x : Char) (hx : x ∉ pat) :
    pat.isPrefixOf (w ++ x :: v) = pat.isPrefixOf w := by
  induction pat generalizing w with
  | nil => simp
  | cons p ps ih =>
    simp only [List.mem_cons, not_or] at hx
    cases w with
    | nil =>
      have : (p == x) = false := by
        simpa using fun e : p = x => hx.1 e.symm
      simp [List.isPrefixOf, this]
    | cons c w =>
      have := ih w hx.2
      simp only [List.cons_append, List.isPrefixOf]
      rw [← this]
      rfl

theorem occurrences_append_sep (pat u v : List Char) (x : Char) (hpat : pat ≠ [])
    (hx : x ∉ pat) :
    occurrences pat (u ++ x :: v) = occurrences pat u + occurrences pat v := by
  induction u with
  | nil =>
    cases pat with
    | nil => exact absurd rfl hpat
    | cons p ps =>
      simp only [List.mem_cons, not_or] at hx
      have : (p == x) = false := by
        simpa using fun e : p = x => hx.1 e.symm
      simp [occurrences, List.isPrefixOf, this]
  | cons c u ih =>
    have h := isPrefixOf_append_sep pat (c :: u) v x hx
    rw [List.cons_append] at h ⊢
    simp only [occurrences, h, ih]
    omega

theorem occurrences_eq_zero_iff (pat s : List Char) (hpat : pat ≠ []) :
    occurrences pat s = 0 ↔ ¬ pat <:+: s := by
  induction s with
  | nil =>
    simp only [occurrences, List.infix_nil, true_iff]
    exact hpat
  | cons c t ih =>
    rw [List.infix_cons_iff, not_or, ← ih]
    simp only [occurrences, Nat.add_eq_zero_iff]
    by_cases hp : pat.isPrefixOf (c :: t) = true
    · have : pat <+: c :: t := List.isPrefixOf_iff_prefix.1 hp
      simp [hp, this]
    · have : ¬ pat <+: c :: t := fun h => hp (List.isPrefixOf_iff_prefix.2 h)
      simp [hp, this]

theorem chapterTmpl_pieces :
    chapterTmpl1.data = chapterTmpl1.data.dropLast ++ ['>']
    ∧ chapterTmpl2.data = '<' :: (chapterTmpl2.data.tail.dropLast ++ [' '])
    ∧ chapterTmpl3.data = '\n' :: (chapterTmpl3.data.tail.dropLast ++ [' '])
    ∧ chapterTmpl4.data = '\n' :: chapterTmpl4.data.tail := by
  decide

/-- The occurrences of a text without `<`, `>`, blank and newline in a
chapter document are those in the title, in the link to `core.css` and in
the content, and those in the fixed text of the template. -/
theorem occurrences_document (pat : List Char) (c : OebpsContent) (hpat : pat ≠ [])
    (hgt : '>' ∉ pat) (hlt : '<' ∉ pat) (hsp : ' ' ∉ pat) (hnl : '\n' ∉ pat) :
    occurrences pat (executeChapterTmpl c).data
      = occurrences pat chapterTmpl1.data.dropLast + (occurrences pat c.Title.data
        + (occurrences pat chapterTmpl2.data.tail.dropLast + (occurrences pat c.CoreCSS.data
        + (occurrences pat chapterTmpl3.data.tail.dropLast + (occurrences pat c.Content.data
        + occurrences pat chapterTmpl4.data.tail))))) := by
  obtain ⟨e1, e2, e3, e4⟩ := chapterTmpl_pieces
  have hdoc : (executeChapterTmpl c).data
      = chapterTmpl1.data.dropLast ++ '>' :: (c.Title.data ++ '<' ::
          (chapterTmpl2.data.tail.dropLast ++ ' ' :: (c.CoreCSS.data ++ '\n' ::
            (chapterTmpl3.data.tail.dropLast ++ ' ' :: (c.Content.data ++ '\n' ::
              chapterTmpl4.data.tail))))) := by
    simp only [executeChapterTmpl, String.data_append]
    generalize chapterTmpl1.data.dropLast = h1 at e1 ⊢
    generalize chapterTmpl2.data.tail.dropLast = h2 at e2 ⊢
    generalize chapterTmpl3.data.tail.dropLast = h3 at e3 ⊢
    generalize chapterTmpl4.data.tail = h4 at e4 ⊢
    rw [e1, e2, e3, e4]
    simp only [List.append_assoc, List.cons_append, List.nil_append]
  rw [hdoc, occurrences_append_sep _ _ _ _ hpat hgt, occurrences_append_sep _ _ _ _ hpat hlt,
    occurrences_append_sep _ _ _ _ hpat hsp, occurrences_append_sep _ _ _ _ hpat hnl,
    occurrences_append_sep _ _ _ _ hpat hsp, occurrences_append_sep _ _ _ _ hpat hnl]

/-- What `chapterOebps` hands to the template is `oebpsContent` at the content
the regular expressions leave. -/
theorem chapterOebps_eq (jsonBook : JsonBook) (chapter : Chapter) :
    chapterOebps jsonBook chapter
      = ((rewriteImages chapter.Images chapter.Content).bind purifyHTML).map
          (oebpsContent jsonBook chapter) := by
  simp only [chapterOebps, bind, pure]
  cases rewriteImages chapter.Images chapter.Content with
  | none => rfl
  | some x =>
    simp only [Option.bind]
    cases purifyHTML x with
    | none => rfl
    | some y => rfl

/-! ## Theorems -/

/-- C1: for every list of dispatched chapters and every arrival order of their
results (a rearrangement of the pairs `(i, i-th chapter)`), filling the chapter
map as `fetchChapters` does and applying `adjustOrderByChapterNumber` returns,
with a `nil` error, the chapters in dispatch order; the result therefore does
not depend on the arrival order. -/
theorem C1_assembly_in_dispatch_order (cs : List Chapter)
    (arrival : List (Int × Chapter)) (h : arrival.Perm (dispatched cs)) :
    adjustOrderByChapterNumber (storeResults GoMap.empty arrival) = (cs, none)
    ∧ (adjustOrderByChapterNumber (storeResults GoMap.empty arrival)).1.length = cs.length
    ∧ ∀ arrival2 : List (Int × Chapter), arrival2.Perm arrival →
        adjustOrderByChapterNumber (storeResults GoMap.empty arrival2)
          = adjustOrderByChapterNumber (storeResults GoMap.empty arrival) := by
  refine ⟨assemble_of_perm cs arrival h, ?_, ?_⟩
  · rw [assemble_of_perm cs arrival h]
  · intro arrival2 h2
    rw [assemble_of_perm cs arrival h, assemble_of_perm cs arrival2 (h2.trans h)]

/-- Witness of C1: three chapters whose results arrive in the reverse of the
dispatch order. -/
theorem C1_assembly_in_dispatch_order_witness :
    adjustOrderByChapterNumber (storeResults GoMap.empty
        [(2, { (default : Chapter) with Title := "c" }),
         (1, { (default : Chapter) with Title := "b" }),
         (0, { (default : Chapter) with Title := "a" })])
      = ([{ (default : Chapter) with Title := "a" }, { (default : Chapter) with Title := "b" },
          { (default : Chapter) with Title := "c" }], none) :=
  (C1_assembly_in_dispatch_order
    [{ (default : Chapter) with Title := "a" }, { (default : Chapter) with Title := "b" },
     { (default : Chapter) with Title := "c" }]
    [(2, { (default : Chapter) with Title := "c" }),
     (1, { (default : Chapter) with Title := "b" }),
     (0, { (default : Chapter) with Title := "a" })]
    (by decide)).1

/-- C2, counterexample: in the three-chapter scenario (orders 2, 0, 1 at the
metadata indices 0, 1, 2) the assembled sequence does not list the chapters by
their table-of-contents order 0, 1, 2. -/
theorem C2_not_ordered_by_toc_order :
    ¬ ((assembledChapters scenarioSafari "b"
          (sentResults (dispatchTasks scenarioSafari scenarioRemote "b"))).1.map
        (fun c => c.Order) = [0, 1, 2]) := by
  decide

/-- C2, amended: in the three-chapter scenario, for every arrival order of the
three results, the assembled sequence is in metadata-index order, that is the
chapter of order 2, then the chapter of order 0, then the chapter of order 1,
and no error is returned. -/
theorem C2_ordered_by_metadata_index (arrival : List (Int × Chapter))
    (h : arrival.Perm (sentResults (dispatchTasks scenarioSafari scenarioRemote "b"))) :
    (assembledChapters scenarioSafari "b" arrival).1.map (fun c => c.Order) = [2, 0, 1]
    ∧ (assembledChapters scenarioSafari "b" arrival).1.map (fun c => c.Filename)
        = ["f0", "f1", "f2"]
    ∧ (assembledChapters scenarioSafari "b" arrival).2 = none := by
  have hs : sentResults (dispatchTasks scenarioSafari scenarioRemote "b")
      = dispatched ((sentResults (dispatchTasks scenarioSafari scenarioRemote "b")).map
          Prod.snd) := by decide
  have hb : (scenarioSafari.books.get "b").chapters = GoMap.empty := rfl
  rw [hs] at h
  have ha := assemble_of_perm _ arrival h
  have : assembledChapters scenarioSafari "b" arrival
      = adjustOrderByChapterNumber (storeResults GoMap.empty arrival) := by
    simp only [assembledChapters, fetchChapters, GoMap.get_set_same, hb]
  rw [this, ha]
  decide

/-- Witness of C2, amended: the last dispatched task finishes first. -/
theorem C2_ordered_by_metadata_index_witness :
    (assembledChapters scenarioSafari "b"
        (sentResults (dispatchTasks scenarioSafari scenarioRemote "b")).reverse).1.map
      (fun c => c.Order) = [2, 0, 1] :=
  (C2_ordered_by_metadata_index
    (sentResults (dispatchTasks scenarioSafari scenarioRemote "b")).reverse
    (List.reverse_perm _)).1

/-- C3, counterexample: on an `img` tag followed by a second `>` a second
application of `purifyHTML` changes the result of the first one. -/
theorem C3_purify_not_idempotent :
    purifyHTML "<img a>>" = some "<img a> />"
    ∧ purifyHTML "<img a> />" = some "<img a /> />"
    ∧ ¬ ((purifyHTML "<img a>>").bind purifyHTML = purifyHTML "<img a>>") := by
  decide

/-- C3, amended: `purifyHTML` is idempotent on every input in which no `>` is
followed at once by another `>`: it returns a result, and applied to this
result it returns it unchanged. -/
theorem C3_purify_idempotent (s : String) (h : ¬ ">>".data <:+: s.data) :
    (∃ out, purifyHTML s = some out ∧ purifyHTML out = some out)
    ∧ (purifyHTML s).bind purifyHTML = purifyHTML s := by
  have hi := purifyChars_idem s.data h
  have h2 : purifyHTML (String.mk (purifyChars s.data))
      = some (String.mk (purifyChars s.data)) := by
    rw [purifyHTML_chars]
    simp only []
    rw [hi]
  refine ⟨⟨_, purifyHTML_chars s, h2⟩, ?_⟩
  rw [purifyHTML_chars s]
  exact h2

/-- Witness of C3, amended: an image, a line break and a rule in several
attribute and white-space variants. -/
theorem C3_purify_idempotent_witness :
    (purifyHTML "<p><img src=\"a.png\" alt=\"x\">< br clear=\"all\"><hr  /></p>").bind purifyHTML
      = purifyHTML "<p><img src=\"a.png\" alt=\"x\">< br clear=\"all\"><hr  /></p>" :=
  (C3_purify_idempotent "<p><img src=\"a.png\" alt=\"x\">< br clear=\"all\"><hr  /></p>"
    (by decide)).2

/-- C4: for every attribute text `a` with at least one character, without `<`
and `>` and not ending in `/`, `purifyHTML` rewrites the tag `<img a>` to
`<img a />`, all of `a` kept. -/
theorem C4_img_self_closed (a : String) (hne : a.data ≠ []) (hlt : '<' ∉ a.data)
    (hgt : '>' ∉ a.data) (hlast : a.data.getLast? ≠ some '/') :
    purifyHTML ("<img" ++ a ++ ">") = some ("<img" ++ a ++ " />") := by
  rw [purifyHTML_chars]
  have hd : ("<img" ++ a ++ ">").data = ('<' :: 'i' :: 'm' :: 'g' :: a.data) ++ ['>'] := by
    simp [String.data_append]
  have hu : '>' ∉ '<' :: 'i' :: 'm' :: 'g' :: a.data := by
    simp [hgt]
  rw [hd, purifyChars, purify_segment _ hu, purify_img a.data hne hlt hlast]
  congr 1
  apply String.ext
  simp [String.data_append]

/-- Witness of C4: the tag of the repository's test. -/
theorem C4_img_self_closed_witness :
    purifyHTML ("<img" ++
        " src=\"httpatomoreillycomsourceoreillyimages926284.jpg\" alt=\"First Edition\"" ++ ">")
      = some ("<img" ++
          " src=\"httpatomoreillycomsourceoreillyimages926284.jpg\" alt=\"First Edition\""
          ++ " />") :=
  C4_img_self_closed
    " src=\"httpatomoreillycomsourceoreillyimages926284.jpg\" alt=\"First Edition\""
    (by decide) (by decide) (by decide) (by decide)

/-- C5: for every text `a` without `>`, `purifyHTML` rewrites `<hr a>` to
`<hr/>` and `<br a>` to `<br/>`: the attributes are dropped. -/
theorem C5_br_hr_canonical (a : String) (hgt : '>' ∉ a.data) :
    purifyHTML ("<hr" ++ a ++ ">") = some "<hr/>"
    ∧ purifyHTML ("<br" ++ a ++ ">") = some "<br/>" := by
  have hd1 : ("<hr" ++ a ++ ">").data = ('<' :: 'h' :: 'r' :: a.data) ++ ['>'] := by
    simp [String.data_append]
  have hd2 : ("<br" ++ a ++ ">").data = ('<' :: 'b' :: 'r' :: a.data) ++ ['>'] := by
    simp [String.data_append]
  have hu1 : '>' ∉ '<' :: 'h' :: 'r' :: a.data := by simp [hgt]
  have hu2 : '>' ∉ '<' :: 'b' :: 'r' :: a.data := by simp [hgt]
  constructor
  · rw [purifyHTML_chars, hd1, purifyChars, purify_segment _ hu1, purify_hr]
    rfl
  · rw [purifyHTML_chars, hd2, purifyChars, purify_segment _ hu2, purify_br]
    rfl

/-- Witness of C5: the tag `<hr>` of the repository's test and a `br` tag
with an attribute. -/
theorem C5_br_hr_canonical_witness :
    purifyHTML ("<hr" ++ "" ++ ">") = some "<hr/>"
    ∧ purifyHTML ("<br" ++ " clear=\"all\"" ++ ">") = some "<br/>" :=
  ⟨(C5_br_hr_canonical "" (by decide)).1, (C5_br_hr_canonical " clear=\"all\"" (by decide)).2⟩

/-- C6: for every chapter whose `Images` list is `["foo/bar.png"]` and whose
content contains `foo/bar.png`, the image-rewriting loop of `writeChapters`
produces a content that contains `images/bar.png` and no occurrence of
`foo/bar.png`. -/
theorem C6_image_reference_rewritten (chapter : Chapter)
    (hi : chapter.Images = ["foo/bar.png"])
    (h : "foo/bar.png".data <:+: chapter.Content.data) :
    ∃ out, rewriteImages chapter.Images chapter.Content = some out
      ∧ "images/bar.png".data <:+: out.data
      ∧ ¬ "foo/bar.png".data <:+: out.data := by
  have hpos : 0 < minLen fooRe.atoms := by decide
  have hplain : '$' ∉ "images/bar.png".data := by decide
  rw [hi, rewriteImages_foo]
  refine ⟨_, rfl, ?_, ?_⟩
  · exact loop_has_replacement fooRe _ hpos hplain "foo/bar.png".data (by decide)
      fooRe_complete _ false h
  · exact loop_no_occurrence fooRe _ hpos hplain 'i' "mages/bar.png".data rfl
      'f' "oo/bar.png".data (by decide) (by decide) fooRe_complete _ _ _ (Nat.le_refl _)

/-- Witness of C6: an image element that refers to `foo/bar.png`. -/
theorem C6_image_reference_rewritten_witness :
    ∃ out, rewriteImages ["foo/bar.png"] "<img src=\"foo/bar.png\"/>" = some out
      ∧ "images/bar.png".data <:+: out.data
      ∧ ¬ "foo/bar.png".data <:+: out.data :=
  C6_image_reference_rewritten
    { (default : Chapter) with Images := ["foo/bar.png"], Content := "<img src=\"foo/bar.png\"/>" }
    rfl ⟨"<img src=\"".data, "\"/>".data, rfl⟩

/-- C7, counterexample: with the image reference `bar.png`, the quoted value
`"xbar.png"` of a different, longer file name is not left unchanged: it is
rewritten to `"images/bar.png"`. -/
theorem C7_longer_path_rewritten :
    rewriteImages ["bar.png"] "<img src=\"xbar.png\"/>"
        = some "<img src=\"images/bar.png\"/>"
    ∧ ¬ "xbar.png".data <:+: "<img src=\"images/bar.png\"/>".data := by
  decide

/-- C7, amended: the rewriting for the image reference `bar.png` replaces,
with the reference, all that precedes it since the last double quote, so it
does match inside a longer file name ending in the reference: for every prefix
`p` without a double quote, the quoted value `"p ++ bar.png"` is rewritten to
`"images/bar.png"`. -/
theorem C7_quoted_value_replaced (p : String) (hp : '"' ∉ p.data) :
    rewriteImages ["bar.png"] ("\"" ++ p ++ "bar.png\"") = some "\"images/bar.png\"" := by
  rw [rewriteImages_bar]
  have hd : ("\"" ++ p ++ "bar.png\"").data = '"' :: (p.data ++ "bar.png\"".data) := by
    simp [String.data_append]
  rw [hd, barRe_quoted p.data hp]

/-- Witness of C7, amended: the longer file name `xbar.png`. -/
theorem C7_quoted_value_replaced_witness :
    rewriteImages ["bar.png"] ("\"" ++ "x" ++ "bar.png\"") = some "\"images/bar.png\"" :=
  C7_quoted_value_replaced "x" (by decide)

/-- C8: the image list built by `downloadImages` has one entry per chapter
and image reference, in chapter order then reference order; the entry of the
reference `r` in a chapter of base URL `b` has `BaseUrl = b`, `File = r` (the
fetched URL is `b ++ r`) and `Path = "images/" ++ n`, where `n` is `r` itself
when `r` has no `/` and the part after the last `/` otherwise. -/
theorem C8_image_list (e : Ebook) :
    (downloadImages e).images
        = e.jsonBook.Chapters.flatMap (fun chapter => chapter.Images.map (fun r =>
            ({ BaseUrl := chapter.AssetBaseURL, File := r, Media := "image/png",
               Path := "images/" ++ imagePathOf r } : ImageToFetch)))
    ∧ (∀ (b r : String), imageURL { BaseUrl := b, File := r, Media := "image/png",
                                    Path := "images/" ++ imagePathOf r } = b ++ r)
    ∧ (∀ r : String, '/' ∉ r.data → imagePathOf r = r)
    ∧ (∀ p n : String, '/' ∉ n.data → imagePathOf (p ++ "/" ++ n) = n) := by
  refine ⟨?_, fun _ _ => rfl, imagePathOf_no_slash, imagePathOf_last⟩
  simp only [downloadImages]
  rw [downloadImages_outer]
  simp

/-- Witness of C8: the two references of one chapter, one with a directory
part and one without. -/
theorem C8_image_list_witness :
    imagePathOf "cover.png" = "cover.png" ∧ imagePathOf ("assets/img" ++ "/" ++ "fig1.png") = "fig1.png" :=
  ⟨(C8_image_list ⟨⟨"", "", "", [], "", "", [], "", []⟩, "", []⟩).2.2.1 "cover.png" (by decide),
   (C8_image_list ⟨⟨"", "", "", [], "", "", [], "", []⟩, "", []⟩).2.2.2 "assets/img" "fig1.png"
     (by decide)⟩

/-- C9, counterexample: for a staging tree as the builder leaves it, the first
member `zipit` writes is named `mimetype` but is not written with the Store
method. -/
theorem C9_mimetype_not_stored :
    ¬ ((generateEpub (stageWorld "books/x" sampleStage) "books/x" "ebook.epub").1.head?.map
        (fun m => (m.Name, m.Method)) = some ("mimetype", Method.Store)) := by
  decide

/-- C9, amended: for every staging tree, every member `zipit` writes for a
regular file, the `mimetype` member included, is written with the Deflate
method; and when `mimetype` is a regular file whose header can be built and
created, the first member of the archive is the one named `mimetype`. -/
theorem C9_members_deflated (temp : String) (entries : List FsNode) (path : String) :
    (∀ m ∈ (generateEpub (stageWorld temp entries) temp path).1,
        m.IsDir = false → m.Method = Method.Deflate)
    ∧ (∀ (n d : String) (f : Faults),
        (stageWorld temp entries).stat (temp ++ "/" ++ "mimetype") = .ok (.file n d f) →
        f.lstatErr = none → f.headerErr = none → f.createErr = none →
        ∃ m, (generateEpub (stageWorld temp entries) temp path).1.head? = some m
          ∧ m.Name = "mimetype" ∧ m.Method = Method.Deflate ∧ m.IsDir = false) := by
  have hgen : (generateEpub (stageWorld temp entries) temp path).1
      = (zipSources (stageWorld temp entries) (filesNeedToBeArchived temp) []).1 := by
    unfold generateEpub zipit
    have hc : (stageWorld temp entries).create path = none := rfl
    rw [hc]
    rcases zipSources (stageWorld temp entries) (filesNeedToBeArchived temp) [] with ⟨a, r⟩
    cases r with
    | none => rfl
    | some r => cases r <;> rfl
  rw [hgen]
  constructor
  · obtain ⟨added, e, q⟩ := zipSources_appends (stageWorld temp entries)
      (filesNeedToBeArchived temp) []
    intro m hm
    rw [e, List.nil_append] at hm
    exact q m hm
  · intro n d f hstat hl hh hc
    have hn : n = "mimetype" := stageWorld_stat_name temp entries "mimetype" _ hstat
    subst hn
    have hstat2 : (stageWorld temp entries).stat (temp ++ "/mimetype")
        = .ok (.file "mimetype" d f) := by
      have : temp ++ "/mimetype" = temp ++ "/" ++ "mimetype" := by
        apply String.ext; simp [String.data_append]
      rw [this]; exact hstat
    have hw : ∃ m a e, Walk "" (.file "mimetype" d f) [] = (m :: a, e)
        ∧ m.Name = "mimetype" ∧ m.Method = Method.Deflate ∧ m.IsDir = false := by
      simp only [Walk, FsNode.faults, hl, walk, zipVisit, FileInfoHeader, hh, hc, FsNode.name,
        FsNode.IsDir]
      cases f.openErr <;> cases f.copyErr <;> simp
    obtain ⟨m, a, e, hW, h1, h2, h3⟩ := hw
    refine ⟨m, ?_, h1, h2, h3⟩
    rw [filesNeedToBeArchived, zipSources]
    simp only [hstat2, FsNode.IsDir, Bool.false_eq_true, if_false, hW]
    exact (zipSources_appends _ _ (m :: a)).head m rfl

/-- Witness of C9, amended: the staging tree of a one-chapter book. -/
theorem C9_members_deflated_witness :
    ∃ m, (generateEpub (stageWorld "books/x" sampleStage) "books/x" "ebook.epub").1.head?
          = some m
      ∧ m.Name = "mimetype" ∧ m.Method = Method.Deflate ∧ m.IsDir = false :=
  (C9_members_deflated "books/x" sampleStage "ebook.epub").2 "mimetype"
    "application/epub+zip" Faults.ok rfl rfl rfl rfl

/-- C10, the code at two failing inputs: with the `META-INF` directory
missing, `os.Stat` fails and `zipit` returns `nil` after writing the
`mimetype` member only; with a chapter file that cannot be opened, the walk
stops with that error, `zipit` drops it, goes on with the next source and
returns `nil`. -/
theorem C10_zipit_returns_nil_on_failure :
    ((stageWorld "books/x" brokenStage).stat "books/x/META-INF").toBool = false
    ∧ zipit (stageWorld "books/x" brokenStage) (filesNeedToBeArchived "books/x") "ebook.epub"
        = (none, [{ Name := "mimetype", Method := Method.Deflate, IsDir := false,
                    data := "application/epub+zip", complete := true }])
    ∧ (zipit (stageWorld "books/x"
          [ .file "mimetype" "application/epub+zip" Faults.ok,
            .dir "META-INF"
              [ .file "container.xml" "" { Faults.ok with openErr := some "permission denied" } ]
              Faults.ok,
            .dir "OEBPS" [] Faults.ok ])
        (filesNeedToBeArchived "books/x") "ebook.epub")
        = (none, [{ Name := "mimetype", Method := Method.Deflate, IsDir := false,
                    data := "application/epub+zip", complete := true },
                  { Name := "META-INF/", Method := Method.Store, IsDir := true,
                    data := "", complete := true },
                  { Name := "META-INF/container.xml", Method := Method.Deflate, IsDir := false,
                    data := "", complete := false },
                  { Name := "OEBPS/", Method := Method.Store, IsDir := true,
                    data := "", complete := true }]) := by
  decide

/-- C11, the code at two failing inputs. When the content request of the
second chapter is answered with a status other than 200, `fetchChapters`
returns `nil` and `FetchBookById` returns the serialized book, whose second
chapter has an empty content. When it is the metadata request of the second
chapter, `fetchChapters` returns `nil` as well and the serialized book holds
the first chapter only. -/
theorem C11_partial_book_is_returned :
    ((twoChapterService ["https://www.safaribooksonline.com//c1"]).get
        "https://www.safaribooksonline.com//c1").toBool = false
    ∧ (fetchChaptersRun
          (fetchMeta NewSafari (twoChapterService ["https://www.safaribooksonline.com//c1"])
            "b").1
          "b"
          (dispatchTasks
            (fetchMeta NewSafari (twoChapterService ["https://www.safaribooksonline.com//c1"])
              "b").1
            (twoChapterService ["https://www.safaribooksonline.com//c1"]).toRemote "b")).map
        Prod.snd = some none
    ∧ FetchBookById NewSafari (twoChapterService ["https://www.safaribooksonline.com//c1"])
        Scheduler.inOrder "b" "user" "password"
      = .data
          { Title := "T", Uuid := "b", Language := "", Author := [], Cover := "",
            Description := "", Publisher := [], Stylesheet := "css1",
            Chapters :=
              [{ Filename := "f0", Images := [], AssetBaseURL := "", Title := "t0",
                 Content := "https://www.safaribooksonline.com//c0", Id := "tocxhtmlfile",
                 Order := 0, StylesheetsURL := ["css0"] },
               { Filename := "f1", Images := [], AssetBaseURL := "", Title := "t1",
                 Content := "", Id := "tocxhtmlfile", Order := 0,
                 StylesheetsURL := ["css1"] }] }
    ∧ FetchBookById NewSafari (twoChapterService ["https://www.safaribooksonline.com//m1"])
        Scheduler.inOrder "b" "user" "password"
      = .data
          { Title := "T", Uuid := "b", Language := "", Author := [], Cover := "",
            Description := "", Publisher := [], Stylesheet := "css0",
            Chapters :=
              [{ Filename := "f0", Images := [], AssetBaseURL := "", Title := "t0",
                 Content := "https://www.safaribooksonline.com//c0", Id := "tocxhtmlfile",
                 Order := 0, StylesheetsURL := ["css0"] }] } := by
  decide

/-- C12, counterexample: a chapter whose content holds a link to `core.css`
of its own. With an empty `Stylesheet` the chapter document has one link with
`href="core.css"`, with a non-empty one it has two. -/
theorem C12_link_from_the_content :
    (chapterDocument (sampleBook "")
        { (default : Chapter) with Title := "x", Content := "<link href=\"core.css\" />" }).map
      (fun doc => occurrences "href=\"core.css\"".data doc.data) = some 1
    ∧ (chapterDocument (sampleBook "http://h/s.css")
        { (default : Chapter) with Title := "x", Content := "<link href=\"core.css\" />" }).map
      (fun doc => occurrences "href=\"core.css\"".data doc.data) = some 2 := by
  decide

/-- C12, amended: for every book, every chapter and every content
`chapterContent` that the rewriting of the image references and `purifyHTML`
hand to the template, if the title of the chapter and `chapterContent` hold
no occurrence of `core.css`, the chapter document holds no occurrence of
`core.css` when the `Stylesheet` of the book is the empty string, and exactly
one occurrence of `href="core.css"`, and of `core.css`, when it is not. The
content is any text, so that no chapter is left out, whatever its image
references are; the first part says that the chapter document of the
embedding is this document, at the content the embedded expressions leave. -/
theorem C12_core_css_link (jsonBook : JsonBook) (chapter : Chapter) (chapterContent : String)
    (htitle : ¬ "core.css".data <:+: chapter.Title.data)
    (hcontent : ¬ "core.css".data <:+: chapterContent.data) :
    chapterDocument jsonBook chapter
      = ((rewriteImages chapter.Images chapter.Content).bind purifyHTML).map
          (fun content => executeChapterTmpl (oebpsContent jsonBook chapter content))
    ∧ (jsonBook.Stylesheet = "" →
        ¬ "core.css".data <:+:
          (executeChapterTmpl (oebpsContent jsonBook chapter chapterContent)).data)
    ∧ (jsonBook.Stylesheet ≠ "" →
        occurrences "href=\"core.css\"".data
            (executeChapterTmpl (oebpsContent jsonBook chapter chapterContent)).data = 1
        ∧ occurrences "core.css".data
            (executeChapterTmpl (oebpsContent jsonBook chapter chapterContent)).data = 1) := by
  have hp1 : "core.css".data ≠ [] := by decide
  have hp2 : "href=\"core.css\"".data ≠ [] := by decide
  have ht : (oebpsContent jsonBook chapter chapterContent).Title = chapter.Title := rfl
  have hct : (oebpsContent jsonBook chapter chapterContent).Content = chapterContent := rfl
  have hcss : (oebpsContent jsonBook chapter chapterContent).CoreCSS
      = (if jsonBook.Stylesheet != "" then
          "<link type=\"text/css\" rel=\"stylesheet\" media=\"all\" href=\"core.css\" />"
        else "") := rfl
  generalize oebpsContent jsonBook chapter chapterContent = c at ht hct hcss ⊢
  have t0 : occurrences "core.css".data c.Title.data = 0 := by
    rw [ht]; exact (occurrences_eq_zero_iff _ _ hp1).2 htitle
  have c0 : occurrences "core.css".data c.Content.data = 0 := by
    rw [hct]; exact (occurrences_eq_zero_iff _ _ hp1).2 hcontent
  have hsub : ∀ s : List Char, ¬ "core.css".data <:+: s →
      occurrences "href=\"core.css\"".data s = 0 := by
    intro s hs
    rw [occurrences_eq_zero_iff _ _ hp2]
    intro hi
    exact hs (List.IsInfix.trans ⟨"href=\"".data, "\"".data, rfl⟩ hi)
  have t1 : occurrences "href=\"core.css\"".data c.Title.data = 0 := by
    rw [ht]; exact hsub _ htitle
  have c1 : occurrences "href=\"core.css\"".data c.Content.data = 0 := by
    rw [hct]; exact hsub _ hcontent
  have d1 := occurrences_document "core.css".data c hp1 (by decide) (by decide) (by decide)
    (by decide)
  have d2 := occurrences_document "href=\"core.css\"".data c hp2 (by decide) (by decide)
    (by decide) (by decide)
  have f1 : occurrences "core.css".data chapterTmpl1.data.dropLast = 0
      ∧ occurrences "core.css".data chapterTmpl2.data.tail.dropLast = 0
      ∧ occurrences "core.css".data chapterTmpl3.data.tail.dropLast = 0
      ∧ occurrences "core.css".data chapterTmpl4.data.tail = 0 := by decide
  have f2 : occurrences "href=\"core.css\"".data chapterTmpl1.data.dropLast = 0
      ∧ occurrences "href=\"core.css\"".data chapterTmpl2.data.tail.dropLast = 0
      ∧ occurrences "href=\"core.css\"".data chapterTmpl3.data.tail.dropLast = 0
      ∧ occurrences "href=\"core.css\"".data chapterTmpl4.data.tail = 0 := by decide
  refine ⟨?_, ?_, ?_⟩
  · rw [chapterDocument, chapterOebps_eq, Option.map_map]
    rfl
  · intro hs
    have hc : c.CoreCSS = "" := by rw [hcss, hs]; rfl
    rw [← occurrences_eq_zero_iff _ _ hp1, d1, t0, c0, hc, f1.1, f1.2.1, f1.2.2.1, f1.2.2.2]
    rfl
  · intro hs
    have hne : (jsonBook.Stylesheet != "") = true := by simpa using hs
    have hc : c.CoreCSS
        = "<link type=\"text/css\" rel=\"stylesheet\" media=\"all\" href=\"core.css\" />" := by
      rw [hcss, hne]; rfl
    have k1 : occurrences "core.css".data
        "<link type=\"text/css\" rel=\"stylesheet\" media=\"all\" href=\"core.css\" />".data
        = 1 := by decide
    have k2 : occurrences "href=\"core.css\"".data
        "<link type=\"text/css\" rel=\"stylesheet\" media=\"all\" href=\"core.css\" />".data
        = 1 := by decide
    constructor
    · rw [d2, t1, c1, hc, k2, f2.1, f2.2.1, f2.2.2.1, f2.2.2.2]
    · rw [d1, t0, c0, hc, k1, f1.1, f1.2.1, f1.2.2.1, f1.2.2.2]

/-- Witness of C12, amended: the chapter of the sample book, with a
stylesheet, and, without one, a chapter whose image reference `a+b.png` is
outside the expressions the embedding parses; `[^"]*a+b.png` matches nowhere
in its content, which reaches the template as it is. -/
theorem C12_core_css_link_witness :
    occurrences "href=\"core.css\"".data
        (executeChapterTmpl
          (oebpsContent (sampleBook "http://h/s.css")
            { (default : Chapter) with
              Filename := "ch01.html", Title := "One", Content := "<p>text<br></p>" }
            "<p>text<br/></p>")).data
      = 1
    ∧ ¬ "core.css".data <:+:
        (executeChapterTmpl
          (oebpsContent (sampleBook "")
            { (default : Chapter) with
              Filename := "ch02.html", Title := "Two", Images := ["a+b.png"],
              Content := "<img src=\"a+b.png\" />" }
            "<img src=\"a+b.png\" />")).data :=
  ⟨((C12_core_css_link (sampleBook "http://h/s.css")
      { (default : Chapter) with
        Filename := "ch01.html", Title := "One", Content := "<p>text<br></p>" }
      "<p>text<br/></p>" (by decide) (by decide)).2.2 (by decide)).1,
   (C12_core_css_link (sampleBook "")
      { (default : Chapter) with
        Filename := "ch02.html", Title := "Two", Images := ["a+b.png"],
        Content := "<img src=\"a+b.png\" />" }
      "<img src=\"a+b.png\" />" (by decide) (by decide)).2.1 (by decide)⟩

/-- C13, the code at a failing input: for a book with an empty `Stylesheet`
in an environment where every operation succeeds, `Save` reaches
`downloadStylesheet`, which creates `OEBPS/core.css` and panics on the
request of the empty address; no archive is written. With a stylesheet the
same build runs to its end. -/
theorem C13_save_fails_without_stylesheet :
    (Save okEnv (NewEbook okEnv (sampleBook "")).1 "" (NewEbook okEnv (sampleBook "")).2)
      = { files :=
            [("books/x/mimetype", "application/epub+zip"),
             ("books/x/META-INF/container.xml",
              "<?xml version=\"1.0\" encoding=\"UTF-8\" ?>\n<container version=\"1.0\" xmlns=\"urn:oasis:names:tc:opendocument:xmlns:container\">\n<rootfiles>\n<rootfile full-path=\"OEBPS/content.opf\" media-type=\"application/oebps-package+xml\"/>\n</rootfiles>\n</container>"),
             ("books/x/OEBPS/ch01.html",
              executeChapterTmpl { Title := "One", Content := "<p>text<br/></p>", CoreCSS := "" }),
             ("books/x/OEBPS/content.opf", "<package/>"),
             ("books/x/OEBPS/toc.ncx", "<ncx/>"),
             ("books/x/OEBPS/images/cover.jpg", "http://h/cover.jpg"),
             ("books/x/OEBPS/style.css", ""),
             ("books/x/OEBPS/core.css", "")],
          requests := ["http://h/cover.jpg"],
          archive := none,
          panic := some "Get \"\": unsupported protocol scheme \"\"" }
    ∧ (Save okEnv (NewEbook okEnv (sampleBook "http://h/s.css")).1 ""
        (NewEbook okEnv (sampleBook "http://h/s.css")).2).panic = none
    ∧ (Save okEnv (NewEbook okEnv (sampleBook "http://h/s.css")).1 ""
        (NewEbook okEnv (sampleBook "http://h/s.css")).2).archive.isSome = true := by
  decide

/-- C14, counterexample: for a chapter map whose chapters 0 and 1 name the
stylesheets `A` and `B`, a range over the map that visits chapter 1 first
makes `fetchStylesheet` store `B`, although `A` is the first non-empty URL in
chapter order. -/
theorem C14_not_in_chapter_order :
    [((1 : Int), { (default : Chapter) with StylesheetsURL := ["B"] }),
     ((0 : Int), { (default : Chapter) with StylesheetsURL := ["A"] })].Perm
        (twoStylesSafari.books.get "b").chapters.entries
    ∧ ((fetchStylesheet twoStylesSafari "b"
          [((1 : Int), { (default : Chapter) with StylesheetsURL := ["B"] }),
           ((0 : Int), { (default : Chapter) with StylesheetsURL := ["A"] })]).1.books.get
        "b").stylesheet = "B"
    ∧ ((adjustOrderByChapterNumber (twoStylesSafari.books.get "b").chapters).1.flatMap
        (fun c => c.StylesheetsURL)).find? (fun u => u != "") = some "A" := by
  decide

/-- C14, amended: `fetchStylesheet` returns no error and sets the book's
stylesheet to the first non-empty URL of the chapters' `StylesheetsURL`
lists, taken in the order in which the range over the chapter map visits the
chapters, and to the empty string when there is none; a later URL, different
or not, never replaces the first non-empty one. -/
theorem C14_first_stylesheet_in_iteration_order (s : Safari) (id : String)
    (iteration : List (Int × Chapter)) :
    (fetchStylesheet s id iteration).2 = none
    ∧ ((fetchStylesheet s id iteration).1.books.get id).stylesheet
        = ((iteration.flatMap (fun entry => entry.2.StylesheetsURL)).find?
            (fun u => u != "")).getD ""
    ∧ (∀ (pre post : List String) (u : String),
        iteration.flatMap (fun entry => entry.2.StylesheetsURL) = pre ++ u :: post →
        (∀ x ∈ pre, x = "") → u ≠ "" →
        ((fetchStylesheet s id iteration).1.books.get id).stylesheet = u) := by
  refine ⟨rfl, fetchStylesheet_stylesheet s id iteration, ?_⟩
  intro pre post u e hpre hu
  rw [fetchStylesheet_stylesheet, e, find?_first_nonempty pre post u hpre hu]
  rfl

/-- Witness of C14, amended: chapter 1 is visited first and names `B`;
chapter 0, visited next, names `A`. -/
theorem C14_first_stylesheet_in_iteration_order_witness :
    ((fetchStylesheet twoStylesSafari "b"
        [((1 : Int), { (default : Chapter) with StylesheetsURL := ["", "B"] }),
         ((0 : Int), { (default : Chapter) with StylesheetsURL := ["A"] })]).1.books.get
      "b").stylesheet = "B" :=
  (C14_first_stylesheet_in_iteration_order twoStylesSafari "b"
    [((1 : Int), { (default : Chapter) with StylesheetsURL := ["", "B"] }),
     ((0 : Int), { (default : Chapter) with StylesheetsURL := ["A"] })]).2.2
    [""] ["A"] "B" rfl (by decide) (by decide)

/-- C15: for every result map, `adjustOrderByChapterNumber` returns no error
and as many chapters as the map has entries, the `i`-th being the entry of
key `i`, or the zero value of `Chapter` when there is none. Hence, when the
results of the tasks dispatched for `cs` lack an index `k`, the list has the
number `M` of results as length, which is less than the number of tasks; it
holds the blank chapter at every missing position below `M`, the dispatched
chapter at the others, and nothing else: no result of index `M` or more. -/
theorem C15_gaps_are_silent :
    (∀ m : GoMap Int Chapter,
      adjustOrderByChapterNumber m
          = ((List.range m.len).map (fun i =>
              match m.find? (Int.ofNat i) with
              | some c => c
              | none => default), none)
      ∧ (adjustOrderByChapterNumber m).1.length = m.len)
    ∧ (∀ (cs : List Chapter) (arrival : List (Int × Chapter)) (k : Nat),
        arrival.Subperm (dispatched cs) → k < cs.length →
        Int.ofNat k ∉ arrival.map Prod.fst →
        (adjustOrderByChapterNumber (storeResults GoMap.empty arrival)).2 = none
        ∧ (adjustOrderByChapterNumber (storeResults GoMap.empty arrival)).1.length
            = arrival.length
        ∧ arrival.length < cs.length
        ∧ (∀ i, i < arrival.length →
            (adjustOrderByChapterNumber (storeResults GoMap.empty arrival)).1[i]?
              = some (if Int.ofNat i ∈ arrival.map Prod.fst then cs.getD i default
                      else default))
        ∧ (∀ c ∈ (adjustOrderByChapterNumber (storeResults GoMap.empty arrival)).1,
            c = default ∨ ∃ i, i < arrival.length ∧ (Int.ofNat i, c) ∈ arrival)) := by
  constructor
  · intro m
    rw [adjustOrder_eq]
    refine ⟨?_, by simp⟩
    congr 1
    apply List.map_congr_left
    intro i _
    simp only [GoMap.get]
    cases m.find? (Int.ofNat i) <;> rfl
  · intro cs arrival k hsub hk hmiss
    have hnd := subperm_keys_nodup cs arrival hsub
    have hlen : (storeResults GoMap.empty arrival).len = arrival.length := by
      rw [storeResults_len _ _ hnd (by intro k _ hk; cases hk)]
      simp [GoMap.len, GoMap.empty]
    have hget : ∀ i : Nat, (storeResults GoMap.empty arrival).get (Int.ofNat i)
        = if Int.ofNat i ∈ arrival.map Prod.fst then cs.getD i default else default := by
      intro i
      by_cases hi : Int.ofNat i ∈ arrival.map Prod.fst
      · rw [if_pos hi]
        obtain ⟨p, hp, e⟩ := List.mem_map.1 hi
        obtain ⟨j, c⟩ := p
        simp only at e
        subst e
        rw [storeResults_get_mem _ _ hnd _ _ hp]
        have := dispatched_mem_inv cs i c (hsub.subset hp)
        rw [List.getD_eq_getElem?_getD, this]
        rfl
      · rw [if_neg hi, storeResults_get_absent _ _ _ hi]
        rfl
    rw [adjustOrder_eq, hlen]
    refine ⟨rfl, by simp, ?_, ?_, ?_⟩
    · have hnot : (Int.ofNat k, cs[k]) ∉ arrival :=
        fun h => hmiss (List.mem_map.2 ⟨_, h, rfl⟩)
      have := (List.cons_subperm_of_not_mem_of_mem hnot (dispatched_mem cs k hk) hsub).length_le
      rw [dispatched_length, List.length_cons] at this
      omega
    · intro i hi
      simp only []
      rw [List.getElem?_map, List.getElem?_range hi]
      simp only [Option.map_some']
      rw [hget]
    · intro c hc
      simp only [List.mem_map, List.mem_range] at hc
      obtain ⟨i, hi, e⟩ := hc
      rw [hget] at e
      by_cases hmem : Int.ofNat i ∈ arrival.map Prod.fst
      · right
        rw [if_pos hmem] at e
        obtain ⟨p, hp, e2⟩ := List.mem_map.1 hmem
        obtain ⟨j, c'⟩ := p
        simp only at e2
        subst e2
        have := dispatched_mem_inv cs i c' (hsub.subset hp)
        rw [List.getD_eq_getElem?_getD, this] at e
        simp only [Option.getD_some] at e
        exact ⟨i, hi, e ▸ hp⟩
      · left
        rw [if_neg hmem] at e
        exact e.symm

/-- Witness of C15: of three dispatched chapters the results of the indices
2 and 0 arrive and the one of index 1 is missing; the list has two elements,
the first chapter and a blank one, and the third chapter is left out. -/
theorem C15_gaps_are_silent_witness :
    (adjustOrderByChapterNumber (storeResults GoMap.empty
        [(2, { (default : Chapter) with Title := "c" }),
         (0, { (default : Chapter) with Title := "a" })])).1
      = [{ (default : Chapter) with Title := "a" }, default]
    ∧ (adjustOrderByChapterNumber (storeResults GoMap.empty
        [(2, { (default : Chapter) with Title := "c" }),
         (0, { (default : Chapter) with Title := "a" })])).1.length = 2 :=
  ⟨by decide,
   (C15_gaps_are_silent.2
    [{ (default : Chapter) with Title := "a" }, { (default : Chapter) with Title := "b" },
     { (default : Chapter) with Title := "c" }]
    [(2, { (default : Chapter) with Title := "c" }),
     (0, { (default : Chapter) with Title := "a" })]
    1 (by decide) (by decide) (by decide)).2.1⟩

/-- C16, the code at a failing input: when the metadata request of the
first of two chapters is answered with a status other than 200, its task
returns without sending a result and without giving the slot of `sem` back;
when it is the first to get the slot, the second task never gets it,
`wg.Wait()` never returns and neither does `FetchBookById`. -/
theorem C16_slot_kept_on_decoding_failure :
    fetchChapterContent
        (fetchMeta NewSafari (twoChapterService ["https://www.safaribooksonline.com//m0"])
          "b").1
        (twoChapterService ["https://www.safaribooksonline.com//m0"]).toRemote 0 "b"
        "https://www.safaribooksonline.com/m0"
      = { sent := none, released := false, panicked := false }
    ∧ (runTasks
        (dispatchTasks
          (fetchMeta NewSafari (twoChapterService ["https://www.safaribooksonline.com//m0"])
            "b").1
          (twoChapterService ["https://www.safaribooksonline.com//m0"]).toRemote "b")).2
        = false
    ∧ FetchBookById NewSafari (twoChapterService ["https://www.safaribooksonline.com//m0"])
        Scheduler.inOrder "b" "user" "password" = .stuck := by
  decide

end SafariBooks
